import Mathlib

/-!
Verification development for the snippet-deduplication and pyramid-index
engine (directories `dedup_new/src` and `dedup/scripts` of the repository).

Python strings are embedded as `List Char`; Python floats that carry exact
decimal policy constants (similarity weights, tier confidences) are embedded
as `ℚ`; fallible Python code (raising exceptions) is embedded as `Except` /
`Option`.  The external merge collaborator (an HTTP API) and the JSON parser
(`json.loads`) are modelled as explicit parameters: the API call outcome is an
`Except String (List Char)` (error message or response text) and the parser is
a function `List Char → Option JVal`.  The `rapidfuzz` string-metric library
is embedded from its documented semantics: `fuzz.ratio` is the normalized
InDel similarity (2·LCS/(|a|+|b|), 100 for two empty strings),
`fuzz.token_sort_ratio` applies `ratio` to the whitespace-split, sorted,
space-rejoined strings, and `fuzz.token_set_ratio` scores 0 when either token
set is empty and otherwise takes the maximum ratio among the sorted
intersection/difference combinations.
-/

namespace DedupSpec

/-! ### Character helpers (ASCII fragment of the Python `str` methods used) -/

/-- Whitespace characters recognised by the embedding (the ASCII fragment of
Python's `\s` / `str.split()` / `str.strip()` whitespace class). -/
def isWs (c : Char) : Bool :=
  c == ' ' || c == '\t' || c == '\n' || c == '\r' || c == '\x0b' || c == '\x0c'

/-- Model of Python `str.lower()` on one character (ASCII fragment). -/
def pyLowerChar : Char → Char
  | 'A' => 'a' | 'B' => 'b' | 'C' => 'c' | 'D' => 'd' | 'E' => 'e' | 'F' => 'f'
  | 'G' => 'g' | 'H' => 'h' | 'I' => 'i' | 'J' => 'j' | 'K' => 'k' | 'L' => 'l'
  | 'M' => 'm' | 'N' => 'n' | 'O' => 'o' | 'P' => 'p' | 'Q' => 'q' | 'R' => 'r'
  | 'S' => 's' | 'T' => 't' | 'U' => 'u' | 'V' => 'v' | 'W' => 'w' | 'X' => 'x'
  | 'Y' => 'y' | 'Z' => 'z'
  | c => c

/-- Model of Python `str.upper()` on one character (ASCII fragment). -/
def pyUpperChar : Char → Char
  | 'a' => 'A' | 'b' => 'B' | 'c' => 'C' | 'd' => 'D' | 'e' => 'E' | 'f' => 'F'
  | 'g' => 'G' | 'h' => 'H' | 'i' => 'I' | 'j' => 'J' | 'k' => 'K' | 'l' => 'L'
  | 'm' => 'M' | 'n' => 'N' | 'o' => 'O' | 'p' => 'P' | 'q' => 'Q' | 'r' => 'R'
  | 's' => 'S' | 't' => 'T' | 'u' => 'U' | 'v' => 'V' | 'w' => 'W' | 'x' => 'X'
  | 'y' => 'Y' | 'z' => 'Z'
  | c => c

/-- ASCII letter test (the "cased character" test used by `str.title()`). -/
def isAsciiLetter (c : Char) : Bool :=
  if ('a' ≤ c ∧ c ≤ 'z') ∨ ('A' ≤ c ∧ c ≤ 'Z') then true else false

/-! ### Normalizer — `Deduplicator._normalize_code` (dedup_new/src/deduplicator.py)

`re.sub(r"#.*$", "", code, flags=re.MULTILINE)` removes, on each line,
everything from the first `#` to the end of the line; `re.sub(r"\s+", " ", …)`
collapses every maximal whitespace run (newlines included) to a single space;
`.strip()` removes leading/trailing whitespace; `.lower()` lowercases. -/

/-- The comment-removal pass: in state `true` we are inside a `#` comment and
drop characters until the next newline (which is kept, as `.` does not match
`\n` in the Python regex). -/
def stripComments : Bool → List Char → List Char
  | _, [] => []
  | true, c :: cs =>
    if c = '\n' then c :: stripComments false cs else stripComments true cs
  | false, c :: cs =>
    if c = '#' then stripComments true cs else c :: stripComments false cs

/-- The whitespace-collapsing pass (`\s+` ↦ `" "`); the Bool records whether
the previous character belonged to a whitespace run. -/
def collapseWs : Bool → List Char → List Char
  | _, [] => []
  | prev, c :: cs =>
    if isWs c then
      (if prev then collapseWs true cs else ' ' :: collapseWs true cs)
    else c :: collapseWs false cs

/-- Drop trailing whitespace (the right half of Python `str.strip()`). -/
def dropTrailWs : List Char → List Char
  | [] => []
  | c :: cs =>
    let r := dropTrailWs cs
    if r.isEmpty && isWs c then [] else c :: r

/-- Model of Python `str.strip()`. -/
def pyStrip (s : List Char) : List Char :=
  dropTrailWs (s.dropWhile isWs)

/-- Model of `Deduplicator._normalize_code`: remove `#` comments, collapse
whitespace runs to single spaces, strip, lowercase. -/
def normalizeCode (code : List Char) : List Char :=
  (pyStrip (collapseWs false (stripComments false code))).map pyLowerChar

/-! ### Similarity Engine — `Deduplicator._calculate_similarity`

`rapidfuzz.fuzz.ratio` is the normalized InDel similarity, i.e.
`2·LCS(a,b)/(|a|+|b|)` (`1` when both strings are empty). -/

/-- Longest common subsequence on the tail list, with head character `a` and
the partially applied outer recursion `lcsAs = lcs as`. -/
def lcsAux (a : Char) (lcsAs : List Char → Nat) : List Char → Nat
  | [] => 0
  | b :: bs =>
    if a = b then lcsAs bs + 1
    else max (lcsAux a lcsAs bs) (lcsAs (b :: bs))

/-- Length of a longest common subsequence of two character lists. -/
def lcs : List Char → List Char → Nat
  | [], _ => 0
  | a :: as, bs => lcsAux a (lcs as) bs

/-- Model of `rapidfuzz.fuzz.ratio(a, b) / 100`: normalized InDel similarity
`2·LCS/(|a|+|b|)` with the two-empty-strings case defined as `1`. -/
def indelSim (a b : List Char) : ℚ :=
  if a.length + b.length = 0 then 1
  else (2 * lcs a b : ℚ) / (a.length + b.length)

/-- Split on whitespace into maximal non-whitespace tokens
(model of Python `str.split()` with no argument); `acc` is the current token
reversed. -/
def splitTokensAux : List Char → List Char → List (List Char)
  | [], [] => []
  | [], acc => [acc.reverse]
  | c :: cs, acc =>
    if isWs c then
      (if acc.isEmpty then splitTokensAux cs [] else acc.reverse :: splitTokensAux cs [])
    else splitTokensAux cs (c :: acc)

/-- Whitespace tokenization of a string. -/
def splitTokens (s : List Char) : List (List Char) :=
  splitTokensAux s []

/-- Join tokens with single spaces (`" ".join(tokens)`). -/
def joinTokens (ts : List (List Char)) : List Char :=
  List.intercalate [' '] ts

/-- Sort a token list lexicographically (Python `sorted` on strings). -/
def sortToks (ts : List (List Char)) : List (List Char) :=
  ts.insertionSort (· ≤ ·)

/-- Model of `rapidfuzz.fuzz.token_sort_ratio(a, b) / 100`: `ratio` applied to
the whitespace-split, sorted, space-rejoined strings. -/
def tokenSortSim (a b : List Char) : ℚ :=
  indelSim (joinTokens (sortToks (splitTokens a))) (joinTokens (sortToks (splitTokens b)))

/-- The sorted deduplicated token set of a string (Python `set(s.split())`,
enumerated in sorted order as `rapidfuzz` does). -/
def tokensOf (s : List Char) : List (List Char) :=
  sortToks (splitTokens s).dedup

/-- Model of `rapidfuzz.fuzz.token_set_ratio(a, b) / 100`: 0 when either token
set is empty; otherwise the maximum `ratio` among (intersection,
intersection+difference₁), (intersection, intersection+difference₂) and the
two intersection+difference combinations. -/
def tokenSetSim (a b : List Char) : ℚ :=
  let ta := tokensOf a
  let tb := tokensOf b
  if ta.isEmpty || tb.isEmpty then 0
  else
    let sect := ta.filter (fun t => decide (t ∈ tb))
    let dab := ta.filter (fun t => decide (t ∉ tb))
    let dba := tb.filter (fun t => decide (t ∉ ta))
    let s0 := joinTokens sect
    let s1 := joinTokens (sect ++ dab)
    let s2 := joinTokens (sect ++ dba)
    max (indelSim s0 s1) (max (indelSim s0 s2) (indelSim s1 s2))

/-- Weight of the sequence-ratio metric in `_calculate_similarity`. -/
def wSeq : ℚ := 0.5

/-- Weight of the token-sort metric in `_calculate_similarity`. -/
def wSort : ℚ := 0.3

/-- Weight of the token-set metric in `_calculate_similarity`. -/
def wSet : ℚ := 0.2

/-- Model of `Deduplicator._calculate_similarity`: normalize both snippets,
compute the three `rapidfuzz` metrics, combine with weights 0.5/0.3/0.2. -/
def calculateSimilarity (code1 code2 : List Char) : ℚ :=
  let n1 := normalizeCode code1
  let n2 := normalizeCode code2
  indelSim n1 n2 * wSeq + tokenSortSim n1 n2 * wSort + tokenSetSim n1 n2 * wSet

/-! ### Data model — dedup_new/src/models.py -/

/-- Model of `models.CodeExample`. -/
structure CodeExample where
  id : String
  code : List Char
  language : String
  context : Option String
  sourceFile : String
  lineNumber : Option Nat
  heading : Option String
  tags : List String
deriving DecidableEq, Repr

/-- Model of `models.DuplicateCluster`. -/
structure DuplicateCluster where
  clusterId : List Char
  examples : List CodeExample
  similarityScore : ℚ
  canonical : String
deriving DecidableEq, Repr

/-! ### Cluster Builder — `Deduplicator._find_clusters` -/

/-- All pairwise similarities within a cluster
(the loop of `Deduplicator._cluster_similarity`). -/
def pairSims : List CodeExample → List ℚ
  | [] => []
  | x :: xs => xs.map (fun y => calculateSimilarity x.code y.code) ++ pairSims xs

/-- Model of `Deduplicator._cluster_similarity`: 1.0 for singletons, otherwise
the mean pairwise similarity. -/
def clusterSimilarity (l : List CodeExample) : ℚ :=
  if l.length ≤ 1 then 1
  else
    let sims := pairSims l
    if sims.isEmpty then 1 else sims.sum / sims.length

/-- Zero-padded 4-digit decimal (Python `f"{n:04d}"`), written with Lean's
decimal `Nat.repr` since it is only a label. -/
def pad4 (n : Nat) : String :=
  let d := toString n
  String.mk (List.replicate (4 - d.length) '0') ++ d

/-- The inner loop of `_find_clusters`: scan the full example list, skipping
the seed position `i` and already-processed ids, and collect every example
whose similarity to the seed is at least the threshold, marking it processed.
Returns the collected members and the updated processed set. -/
def collectSimilar (t : ℚ) (seed : CodeExample) (i : Nat) :
    List (Nat × CodeExample) → List String → List CodeExample × List String
  | [], processed => ([], processed)
  | (j, other) :: rest, processed =>
    if i = j ∨ other.id ∈ processed then collectSimilar t seed i rest processed
    else if t ≤ calculateSimilarity seed.code other.code then
      let r := collectSimilar t seed i rest (other.id :: processed)
      (other :: r.1, r.2)
    else collectSimilar t seed i rest processed

/-- The outer loop of `_find_clusters`: each not-yet-processed example seeds a
new cluster whose members are collected by one `collectSimilar` pass over the
whole list. -/
def buildClusters (t : ℚ) (all : List (Nat × CodeExample)) :
    List (Nat × CodeExample) → List String → List DuplicateCluster → List DuplicateCluster
  | [], _, clusters => clusters.reverse
  | (i, ex) :: rest, processed, clusters =>
    if ex.id ∈ processed then buildClusters t all rest processed clusters
    else
      let r := collectSimilar t ex i all (ex.id :: processed)
      let members := ex :: r.1
      let cluster : DuplicateCluster :=
        { clusterId := ("cluster_" ++ pad4 clusters.length).data
          examples := members
          similarityScore := clusterSimilarity members
          canonical := ex.id }
      buildClusters t all rest r.2 (cluster :: clusters)

/-- Model of `Deduplicator._find_clusters`. -/
def findClusters (t : ℚ) (examples : List CodeExample) : List DuplicateCluster :=
  buildClusters t examples.enum examples.enum [] []

/-! ### Merge Coordinator — dedup_new/src/ai_client.py

The external collaborator call (`_call_api`) is a parameter of type
`Except String (List Char)`: `error e` models the call raising an exception
with message `e` (network/auth/timeout), `ok response` models it returning the
response text.  `json.loads` is a parameter `parse : List Char → Option JVal`
(`none` models `json.JSONDecodeError`). -/

/-- Parsed JSON values (the possible results of `json.loads`). -/
inductive JVal where
  | jnull : JVal
  | jbool : Bool → JVal
  | jnum : ℚ → JVal
  | jstr : String → JVal
  | jarr : List JVal → JVal
  | jobj : List (String × JVal) → JVal

/-- Model of `models.MergedExample`; the free-form `metadata` dict keeps its
JSON values (pydantic does not validate `Dict[str, Any]`). -/
structure MergedExample where
  id : String
  code : List Char
  language : String
  description : String
  sources : List String
  tags : List String
  notes : String
  metadata : List (String × JVal)

/-- Python `a or b` for an optional string field: `b` when `a` is missing or
empty (empty strings are falsy). -/
def pyOrStr (a : Option String) (b : String) : String :=
  match a with
  | none => b
  | some s => if s.data.isEmpty then b else s

/-- Does `pat` occur as a prefix of `s`? -/
def startsWithPat : List Char → List Char → Bool
  | [], _ => true
  | _ :: _, [] => false
  | p :: ps, c :: cs => p == c && startsWithPat ps cs

/-- Index of the first occurrence of `pat` in `s`, if any. -/
def findPat (pat : List Char) : List Char → Option Nat
  | [] => if pat.isEmpty then some 0 else none
  | c :: cs =>
    if startsWithPat pat (c :: cs) then some 0
    else (findPat pat cs).map (· + 1)

/-- Fueled splitting of `s` on every occurrence of `pat`
(model of Python `str.split(pat)` for non-empty `pat`). -/
def pySplitFuel (pat : List Char) : Nat → List Char → List (List Char)
  | 0, s => [s]
  | fuel + 1, s =>
    match findPat pat s with
    | none => [s]
    | some i => s.take i :: pySplitFuel pat fuel (s.drop (i + pat.length))

/-- Model of Python `str.split(pat)` for a non-empty separator. -/
def pySplit (pat s : List Char) : List (List Char) :=
  pySplitFuel pat (s.length + 1) s

/-- The code-fence extraction at the top of `_parse_merge_response`:
strip the response, then cut out the contents of a ```json … ``` fence
(or a plain ``` … ``` fence) when one is present. -/
def extractFenced (response : List Char) : List Char :=
  let jm := pyStrip response
  if (findPat "```json".data jm).isSome then
    pyStrip ((pySplit "```".data ((pySplit "```json".data jm).getD 1 [])).getD 0 [])
  else if (findPat "```".data jm).isSome then
    pyStrip ((pySplit "```".data ((pySplit "```".data jm).getD 1 [])).getD 0 [])
  else jm

/-- Lookup in a parsed JSON object (Python `dict.get`). -/
def jLookup (fields : List (String × JVal)) (k : String) : Option JVal :=
  (fields.find? (fun p => p.1 == k)).map (·.2)

/-- `data.get(k, dflt)` for a field that pydantic requires to be a string:
a missing field yields the default, a JSON string yields its value, any other
JSON value makes the `MergedExample` constructor raise a validation error. -/
def getStrField (fields : List (String × JVal)) (k : String) (dflt : String) :
    Except String String :=
  match jLookup fields k with
  | none => .ok dflt
  | some (JVal.jstr s) => .ok s
  | some _ => .error ("ValidationError: " ++ k)

/-- Interpret a JSON array as a list of strings (pydantic `List[str]`),
failing on any non-string element. -/
def asStrList : List JVal → Except String (List String)
  | [] => .ok []
  | JVal.jstr s :: rest => (asStrList rest).map (s :: ·)
  | _ :: _ => .error "ValidationError: tags"

/-- `data.get("tags", [])` under pydantic `List[str]`. -/
def getTagsField (fields : List (String × JVal)) : Except String (List String) :=
  match jLookup fields "tags" with
  | none => .ok []
  | some (JVal.jarr xs) => asStrList xs
  | some _ => .error "ValidationError: tags"

/-- The fallback record built in the `except` block of `merge_examples`
(first member as canonical, confidence 0.5, error recorded in the notes). -/
def mergeFallback (examples : List CodeExample) (clusterId : String)
    (e : String) (ex0 : CodeExample) : MergedExample :=
  { id := "merged_" ++ clusterId
    code := ex0.code
    language := ex0.language
    description := "Merge failed: " ++ e
    sources := examples.map (·.id)
    tags := ex0.tags
    notes := "AI merge failed, using first example. Error: " ++ e
    metadata := [("confidence", JVal.jnum 0.5),
                 ("variations", JVal.jnum (examples.length - 1))] }

/-- Model of `OpenRouterClient._parse_merge_response`.  A `json.JSONDecodeError`
(`parse … = none`) is handled locally by the first-member fallback with
confidence 0.6; a response that parses to a non-object, or an object whose
used fields have the wrong type, raises (`Except.error`), to be caught by the
caller. -/
def parseMergeResponse (parse : List Char → Option JVal) (model : String)
    (response : List Char) (examples : List CodeExample) (clusterId : String) :
    Except String MergedExample :=
  match examples with
  | [] => .error "IndexError: examples is empty"
  | ex0 :: _ =>
    match parse (extractFenced response) with
    | none =>
      .ok { id := "merged_" ++ clusterId
            code := ex0.code
            language := ex0.language
            description := pyOrStr ex0.context "Merge failed"
            sources := examples.map (·.id)
            tags := ex0.tags
            notes := "JSON parse failed. Raw response: " ++
              String.mk (response.take 100) ++ "..."
            metadata := [("confidence", JVal.jnum 0.6),
                         ("variations", JVal.jnum (examples.length - 1))] }
    | some (JVal.jobj fields) =>
      match getStrField fields "canonical_code" (String.mk ex0.code) with
      | .error e => .error e
      | .ok code =>
        match getStrField fields "language" "python" with
        | .error e => .error e
        | .ok lang =>
          match getStrField fields "description" "" with
          | .error e => .error e
          | .ok desc =>
            match getTagsField fields with
            | .error e => .error e
            | .ok tags =>
              match getStrField fields "notes" "" with
              | .error e => .error e
              | .ok notes =>
                .ok { id := "merged_" ++ clusterId
                      code := code.data
                      language := lang
                      description := desc
                      sources := examples.map (·.id)
                      tags := tags
                      notes := notes
                      metadata :=
                        [("confidence", (jLookup fields "confidence").getD (JVal.jnum 0.8)),
                         ("variations", JVal.jnum (examples.length - 1)),
                         ("ai_model", JVal.jstr model)] }
    | some _ => .error "AttributeError: response JSON is not an object"

/-- Model of `OpenRouterClient.merge_examples`.  `Except.error` models the
method raising (only the empty-input `ValueError`); every other path returns a
record.  The single-member case never consults `apiResult` (no collaborator
call is made). -/
def mergeExamples (parse : List Char → Option JVal) (model : String)
    (apiResult : Except String (List Char))
    (examples : List CodeExample) (clusterId : String) :
    Except String MergedExample :=
  match examples with
  | [] => .error "ValueError: No examples to merge"
  | [ex] =>
    .ok { id := "merged_" ++ ex.id
          code := ex.code
          language := ex.language
          description := pyOrStr ex.context "Code example"
          sources := [ex.id]
          tags := ex.tags
          notes := "Single example, no duplicates found"
          metadata := [("confidence", JVal.jnum 1.0), ("variations", JVal.jnum 0)] }
  | ex0 :: _ :: _ =>
    match apiResult with
    | .error e => .ok (mergeFallback examples clusterId e ex0)
    | .ok response =>
      match parseMergeResponse parse model response examples clusterId with
      | .ok m => .ok m
      | .error e => .ok (mergeFallback examples clusterId e ex0)

/-- The numeric value of a JSON value, when it is a number. -/
def jnumValue : JVal → Option ℚ
  | JVal.jnum q => some q
  | _ => none

/-- The confidence entry of a merged record's metadata, when it is a number. -/
def mergedConfidence (m : MergedExample) : Option ℚ :=
  match jLookup m.metadata "confidence" with
  | some (JVal.jnum q) => some q
  | _ => none

/-! ### Tier classification by occurrence count —
`cluster_examples` in dedup/scripts/build_pyramid_output.py -/

/-- The occurrence-count tier table of `cluster_examples` (lines 91–102 of
build_pyramid_output.py): tier label and its fixed confidence.  `a0` is the
canonical (top) tier there, `a1` minor variants, `a2` significant variants,
`a3` edge cases. -/
def tierByOccurrence (count : Nat) : List Char × ℚ :=
  if 5 ≤ count then ("a0".data, 1)
  else if 3 ≤ count then ("a1".data, 0.95)
  else if 2 ≤ count then ("a2".data, 0.87)
  else ("a3".data, 0.75)

/-- The tier table exactly as the specification words it (spec-side
definition: occurrences ≥ 5 canonical with 1.00, 3–4 minor-variant with 0.95,
2 significant-variant with 0.87, 1 edge-case with 0.75), for comparison with
the code's classifiers. -/
def specTierTable (n : Nat) : List Char × ℚ :=
  if 5 ≤ n then ("a0".data, 1)
  else if 3 ≤ n ∧ n ≤ 4 then ("a1".data, 0.95)
  else if n = 2 then ("a2".data, 0.87)
  else ("a3".data, 0.75)

/-! ### Three-layer builder — dedup_new/src/three_layer_builder.py

The builder consumes merged-example JSON dicts; the fields it reads
(`ex.get("tags", [])`, `ex.get("sources", [])`,
`ex.get("metadata", {}).get("confidence", 0.8)`, `ex.get("description", "")`)
are embedded as a structure, with the optional metadata confidence as an
`Option ℚ`. -/

/-- A merged-example JSON dict as read by `ThreeLayerBuilder`. -/
structure BuilderExample where
  id : String
  code : List Char
  language : String
  description : List Char
  tags : List (List Char)
  sources : List String
  confidence : Option ℚ
deriving DecidableEq, Repr

/-- `ex.get("metadata", {}).get("confidence", 0.8)`. -/
def getConfidence (ex : BuilderExample) : ℚ :=
  ex.confidence.getD 0.8

/-- Model of `ThreeLayerBuilder._determine_tier`: canonical (`a1`) only when
at least 2 sources and confidence at least 0.9; variant (`a2`) when at least
one source or confidence at least 0.7; otherwise edge case (`a3`). -/
def determineTier (ex : BuilderExample) : List Char :=
  if 2 ≤ ex.sources.length ∧ (0.9 : ℚ) ≤ getConfidence ex then "a1".data
  else if 1 ≤ ex.sources.length ∨ (0.7 : ℚ) ≤ getConfidence ex then "a2".data
  else "a3".data

/-- Python `str.lower()` on a string. -/
def lowerStr (s : List Char) : List Char :=
  s.map pyLowerChar

/-- The multiset of lowercased tags over all examples
(what `TagCompressor.analyze_tags` feeds `tag_counter`). -/
def allTagOccs (examples : List BuilderExample) : List (List Char) :=
  (examples.flatMap (·.tags)).map lowerStr

/-- `self.tag_counter[t]`: number of occurrences of lowercased tag `t`. -/
def tagCount (examples : List BuilderExample) (t : List Char) : Nat :=
  (allTagOccs examples).count t

/-- The fixed 2-letter abbreviation table (`common_patterns` in
`TagCompressor._build_compression_rules`). -/
def commonShort (t : List Char) : Option (List Char) :=
  if t = "error".data then some "er".data
  else if t = "async".data then some "as".data
  else if t = "connect".data then some "co".data
  else if t = "data".data then some "da".data
  else if t = "order".data then some "or".data
  else if t = "contract".data then some "ct".data
  else none

/-- Lowercase-vowel test (`c not in "aeiou"` filters with this). -/
def isVowel (c : Char) : Bool :=
  c == 'a' || c == 'e' || c == 'i' || c == 'o' || c == 'u'

/-- The pre-collision short code chosen for a tag: the abbreviation table,
else the tag itself when it is at most 3 characters, else its first 3
consonants (or first 3 characters when it has fewer than 3 consonants). -/
def shortFor (t : List Char) : List Char :=
  match commonShort t with
  | some s => s
  | none =>
    if t.length ≤ 3 then t
    else
      let cons := t.filter (fun c => !(isVowel c))
      if 3 ≤ cons.length then cons.take 3 else t.take 3

/-- Python dict assignment `d[k] = v` on an insertion-ordered association
list: update in place if the key exists, else append. -/
def pyDictSet {β : Type} (k : List Char) (v : β) :
    List (List Char × β) → List (List Char × β)
  | [] => [(k, v)]
  | (k', v') :: rest =>
    if k' = k then (k, v) :: rest else (k', v') :: pyDictSet k v rest

/-- The loop body of `TagCompressor._build_compression_rules`: for each tag in
the given order, pick its short code, lengthen to `tag[:4]` when the code is
already a key of `tag_map`, then assign both directions.  Returns
`(tag_map, reverse_map)`. -/
def buildRulesAux : List (List Char) →
    List (List Char × List Char) → List (List Char × List Char) →
    List (List Char × List Char) × List (List Char × List Char)
  | [], tm, rm => (tm, rm)
  | t :: rest, tm, rm =>
    let s0 := shortFor t
    let s := if (tm.find? (fun p => p.1 == s0)).isSome then t.take 4 else s0
    buildRulesAux rest (pyDictSet s t tm) (pyDictSet t s rm)

/-- Stable insertion for a descending sort by a numeric key: the new element
(which came later in the input) goes after every already-placed element whose
key is at least as large. -/
def insertStableDesc (cnt : List Char → Nat) (x : List Char) :
    List (List Char) → List (List Char)
  | [] => [x]
  | y :: ys =>
    if cnt y < cnt x then x :: y :: ys else y :: insertStableDesc cnt x ys

/-- Stable descending sort by a numeric key
(Python `sorted(l, key=cnt, reverse=True)`). -/
def sortByCountDesc (cnt : List Char → Nat) (l : List (List Char)) : List (List Char) :=
  l.foldl (fun acc x => insertStableDesc cnt x acc) []

/-- Model of `TagCompressor.analyze_tags` followed by
`_build_compression_rules`.  The iteration order of the Python `set` of tags
is not specified, so it is an explicit parameter `order` (an enumeration of
the distinct lowercased tags); the set is then sorted by descending occurrence
count (Python's `sorted` is stable, so ties keep the enumeration order). -/
def compressionRules (examples : List BuilderExample) (order : List (List Char)) :
    List (List Char × List Char) × List (List Char × List Char) :=
  buildRulesAux (sortByCountDesc (tagCount examples) order) [] []

/-- Model of `TagCompressor.compress`. -/
def compress (reverseMap : List (List Char × List Char)) (t : List Char) : List Char :=
  match reverseMap.find? (fun p => p.1 == lowerStr t) with
  | some p => p.2
  | none => t.take 3

/-- The related-terms list built by `TagCompressor.get_dictionary` for one
full term: the term, its singular when it ends in `s`, and the fixed variants
for `connect` and `order`. -/
def relatedTerms (full : List Char) : List (List Char) :=
  ([full] ++ (if full.getLast? = some 's' then [full.dropLast] else [])) ++
    (if full = "connect".data then ["connection".data, "connecting".data] else []) ++
    (if full = "order".data then ["orders".data, "ordering".data, "trade".data] else [])

/-- Model of `TagCompressor.get_dictionary`: the short-code → comma-joined
related-terms dictionary persisted inside `tag_index.json`. -/
def getDictionary (tagMap : List (List Char × List Char)) :
    List (List Char × List Char) :=
  tagMap.map (fun p => (p.1, List.intercalate [','] (relatedTerms p.2)))

/-! ### Decimal rendering and parsing (Python `str(n)` / `int(s)`) -/

/-- Little-endian decimal digits with explicit fuel (structural recursion so
that the kernel can evaluate it). -/
def toDigitsRev : Nat → Nat → List Nat
  | 0, _ => []
  | fuel + 1, n => if n = 0 then [] else n % 10 :: toDigitsRev fuel (n / 10)

/-- One decimal digit as a character (codepoint 48 is `0`). -/
def decDigitChar (d : Nat) : Char :=
  if d < 10 then Char.ofNat (48 + d) else '*'

/-- Decimal digit value of a character, if it is one. -/
def charDigitVal (c : Char) : Option Nat :=
  if 48 ≤ c.toNat ∧ c.toNat ≤ 57 then some (c.toNat - 48) else none

/-- Model of Python `str(n)` for a natural number. -/
def renderDec (n : Nat) : List Char :=
  if n = 0 then ['0'] else (toDigitsRev n n).reverse.map decDigitChar

/-- Accumulating decimal parser. -/
def parseDecAux : List Char → Nat → Option Nat
  | [], acc => some acc
  | c :: cs, acc =>
    match charDigitVal c with
    | none => none
    | some d => parseDecAux cs (acc * 10 + d)

/-- Model of Python `int(s)` on a plain digit string (`none` models the
`ValueError` raised on an empty or non-numeric string). -/
def parseDec (s : List Char) : Option Nat :=
  if s.isEmpty then none else parseDecAux s 0

/-! ### Apex layer — `ThreeLayerBuilder._build_apex_layer` -/

/-- Model of `str.title()` (ASCII fragment): the first letter of each
alphabetic run is uppercased, the rest lowercased; the Bool records whether
the previous character was a letter. -/
def pyTitleAux : Bool → List Char → List Char
  | _, [] => []
  | prev, c :: cs =>
    if isAsciiLetter c then
      (if prev then pyLowerChar c else pyUpperChar c) :: pyTitleAux true cs
    else c :: pyTitleAux false cs

/-- Python `str.title()`. -/
def pyTitle (s : List Char) : List Char :=
  pyTitleAux false s

/-- Model of `ThreeLayerBuilder._extract_operation`: the title-cased first
tag, else the title-cased first word of the description, else `Misc`. -/
def extractOperation (ex : BuilderExample) : List Char :=
  match ex.tags with
  | t :: _ => pyTitle t
  | [] =>
    match splitTokens ex.description with
    | w :: _ => pyTitle w
    | [] => "Misc".data

/-- Append `ex` to the group of key `k` in an insertion-ordered association
list (Python `defaultdict(list)` indexing plus `append`). -/
def addToGroup (k : List Char) (ex : BuilderExample) :
    List (List Char × List BuilderExample) → List (List Char × List BuilderExample)
  | [] => [(k, [ex])]
  | (k', xs) :: rest =>
    if k' = k then (k', xs ++ [ex]) :: rest else (k', xs) :: addToGroup k ex rest

/-- Group the examples by operation, preserving first-seen group order. -/
def groupByOp (exs : List BuilderExample) :
    List (List Char × List BuilderExample) :=
  exs.foldl (fun acc ex => addToGroup (extractOperation ex) ex acc) []

/-- Model of `ThreeLayerBuilder._calculate_depth`: the number of distinct
tiers used by the group's examples. -/
def calcDepth (exs : List BuilderExample) : Nat :=
  ((exs.map determineTier).dedup).length

/-- The apex entry strings `"{op}:{total}:{num}:{depth}:{first_line}"`, built
group by group while threading the `line_counter` state. -/
def apexEntriesAux : List (List Char × List BuilderExample) → Nat → List (List Char)
  | [], _ => []
  | (op, exs) :: rest, counter =>
    (op ++ ':' :: renderDec exs.length ++ ':' :: renderDec exs.length ++
       ':' :: renderDec (calcDepth exs) ++ ':' :: renderDec counter)
    :: apexEntriesAux rest (counter + exs.length)

/-- All apex entries of a builder input (line counter starts at 0). -/
def apexEntries (exs : List BuilderExample) : List (List Char) :=
  apexEntriesAux (groupByOp exs) 0

/-- Split a string on one separator character (Python `s.split(":")`). -/
def splitOnCharAux (sep : Char) : List Char → List Char → List (List Char)
  | [], acc => [acc.reverse]
  | c :: cs, acc =>
    if c = sep then acc.reverse :: splitOnCharAux sep cs []
    else splitOnCharAux sep cs (c :: acc)

/-- Python `s.split(sep)` for a single-character separator. -/
def splitOnChar (sep : Char) (s : List Char) : List (List Char) :=
  splitOnCharAux sep s []

/-- The popularity sort key of an apex entry:
`int(e.split(":")[1])` (`none` models the `ValueError` on a malformed field). -/
def entryKey (e : List Char) : Option Nat :=
  parseDec ((splitOnChar ':' e).getD 1 [])

/-- Model of the `apex_popular` list: the apex entries sorted by the parsed
mention count, descending, with Python's stable `sorted`. -/
def apexPopular (exs : List BuilderExample) : List (List Char) :=
  sortByCountDesc (fun e => (entryKey e).getD 0) (apexEntries exs)

/-- The alphabetical bucket key of an apex entry:
`entry.split(":")[0][0].upper()` (`none` models the `IndexError` on an empty
topic). -/
def bucketKey (e : List Char) : Option Char :=
  ((splitOnChar ':' e).getD 0 []).head?.map pyUpperChar

/-- Append an entry to its first-letter bucket
(`apex_alpha_dict[first_letter].append(entry)`). -/
def addToBucket (L : Char) (e : List Char) :
    List (Char × List (List Char)) → List (Char × List (List Char))
  | [] => [(L, [e])]
  | (L', xs) :: rest =>
    if L' = L then (L', xs ++ [e]) :: rest else (L', xs) :: addToBucket L e rest

/-- The unsorted first-letter buckets, in first-seen bucket order. -/
def apexAlphaRaw (entries : List (List Char)) : List (Char × List (List Char)) :=
  entries.foldl
    (fun acc e =>
      match bucketKey e with
      | some L => addToBucket L e acc
      | none => acc)
    []

/-- Model of the `apex_alpha` map: buckets by uppercased first letter of the
topic, each bucket sorted lexicographically (`lst.sort()` on strings). -/
def apexAlpha (exs : List BuilderExample) : List (Char × List (List Char)) :=
  (apexAlphaRaw (apexEntries exs)).map
    (fun p => (p.1, p.2.insertionSort (· ≤ ·)))

/-! ### The script apex builder — dedup/scripts/build_pyramid_output.py

`build_layer1_apex` consumes the per-operation tier dict produced by
`cluster_examples`; the fields it reads — each tier's records'
`occurrences` counts and the first record's `id` — are embedded as lists of
(id, occurrences) pairs per tier.  Python's run-dependent `hash` on strings
is an explicit parameter `pyHash`. -/

/-- A per-operation cluster as read by `build_layer1_apex`: for each tier,
the (id, occurrences) pairs of its records. -/
structure OpCluster where
  operation : List Char
  a0 : List (List Char × Nat)
  a1 : List (List Char × Nat)
  a2 : List (List Char × Nat)
  a3 : List (List Char × Nat)

/-- Python `sum(ex['occurrences'] for tier in tiers.values() for ex in tier)`. -/
def totalMentions (c : OpCluster) : Nat :=
  ((c.a0 ++ c.a1 ++ c.a2 ++ c.a3).map (·.2)).sum

/-- Python `sum(len(tier) for tier in tiers.values())`. -/
def numExamples (c : OpCluster) : Nat :=
  (c.a0 ++ c.a1 ++ c.a2 ++ c.a3).length

/-- The depth digits of the nonempty tiers
(`int(tier[1]) for tier in tiers.keys() if tiers[tier]`, in the tier dict's
`a0, a1, a2, a3` insertion order). -/
def tierDepths (c : OpCluster) : List Nat :=
  (if c.a0.isEmpty then [] else [0]) ++ (if c.a1.isEmpty then [] else [1]) ++
  (if c.a2.isEmpty then [] else [2]) ++ (if c.a3.isEmpty then [] else [3])

/-- Python `max(...)` over the nonempty-tier depths; the empty case models
the `ValueError` that `max` raises on an empty sequence. -/
def maxDepthOf (c : OpCluster) : Except String Nat :=
  match tierDepths c with
  | [] => .error "ValueError: max() arg is an empty sequence"
  | d :: ds => .ok (ds.foldl max d)

/-- The canonical line: `hash(...) % 1000` of the first `a0` record's id,
else of the first `a1` record's id, else of the operation name. -/
def canonicalLine (pyHash : List Char → Nat) (c : OpCluster) : Nat :=
  match c.a0 with
  | p :: _ => pyHash p.1 % 1000
  | [] =>
    match c.a1 with
    | p :: _ => pyHash p.1 % 1000
    | [] => pyHash c.operation % 1000

/-- One `op_stats` tuple `(total_mentions, operation, entry)`, the entry
being the colon-joined operation, total mentions, example count, depth and
canonical line. -/
def opStat (pyHash : List Char → Nat) (c : OpCluster) :
    Except String (Nat × List Char × List Char) :=
  match maxDepthOf c with
  | .error e => .error e
  | .ok depth =>
    .ok (totalMentions c, c.operation,
      c.operation ++ ':' :: renderDec (totalMentions c) ++
        ':' :: renderDec (numExamples c) ++ ':' :: renderDec depth ++
        ':' :: renderDec (canonicalLine pyHash c))

/-- All `op_stats` tuples, in the clusters dict's insertion order. -/
def opStats (pyHash : List Char → Nat) :
    List OpCluster → Except String (List (Nat × List Char × List Char))
  | [] => .ok []
  | c :: cs =>
    match opStat pyHash c with
    | .error e => .error e
    | .ok s =>
      match opStats pyHash cs with
      | .error e => .error e
      | .ok ss => .ok (s :: ss)

/-- Python's `<` on the `(int, str, str)` tuples of `op_stats`
(lexicographic on the components). -/
def tupleLt (a b : Nat × List Char × List Char) : Bool :=
  decide (a.1 < b.1) ||
  (decide (a.1 = b.1) && (decide (a.2.1 < b.2.1) ||
    (decide (a.2.1 = b.2.1) && decide (a.2.2 < b.2.2))))

/-- Stable descending insertion in the tuple order. -/
def insertTupleDesc (x : Nat × List Char × List Char) :
    List (Nat × List Char × List Char) → List (Nat × List Char × List Char)
  | [] => [x]
  | y :: ys => if tupleLt y x then x :: y :: ys else y :: insertTupleDesc x ys

/-- Model of `op_stats.sort(reverse=True)`: stable, descending in the
lexicographic tuple order (so ties on the mention count are broken by the
operation name, descending). -/
def sortTuplesDesc (l : List (Nat × List Char × List Char)) :
    List (Nat × List Char × List Char) :=
  l.foldl (fun acc x => insertTupleDesc x acc) []

/-- The `apex_popular` list of the script: the entries of the reverse-sorted
`op_stats` tuples. -/
def apexPopularScript (pyHash : List Char → Nat) (cs : List OpCluster) :
    Except String (List (List Char)) :=
  match opStats pyHash cs with
  | .error e => .error e
  | .ok ss => .ok ((sortTuplesDesc ss).map (fun s => s.2.2))

/-- Python `operation[0].upper() if operation else 'U'`. -/
def scriptFirstLetter (op : List Char) : Char :=
  match op.head? with
  | some c => pyUpperChar c
  | none => 'U'

/-- The script's `apex_alpha` buckets: each entry appended to its
first-letter bucket in iteration order; no sorting is applied. -/
def apexAlphaScriptOf (ss : List (Nat × List Char × List Char)) :
    List (Char × List (List Char)) :=
  ss.foldl (fun acc s => addToBucket (scriptFirstLetter s.2.1) s.2.2 acc) []

/-- The `apex_alpha` dict of the script. -/
def apexAlphaScript (pyHash : List Char → Nat) (cs : List OpCluster) :
    Except String (List (Char × List (List Char))) :=
  match opStats pyHash cs with
  | .error e => .error e
  | .ok ss => .ok (apexAlphaScriptOf ss)

/-- The bucket of a letter in an association list of buckets. -/
def bucketOf (L : Char) (bs : List (Char × List (List Char))) :
    List (List Char) :=
  match bs.find? (fun p => p.1 == L) with
  | some p => p.2
  | none => []

/-- Decidable equality of call results, for evaluating concrete runs. -/
instance instDecEqExcept {ε α : Type} [DecidableEq ε] [DecidableEq α] :
    DecidableEq (Except ε α) := fun x y =>
  match x, y with
  | .error e, .error e' =>
    match decEq e e' with
    | isTrue h => isTrue (by rw [h])
    | isFalse h => isFalse (fun hh => h (by injection hh))
  | .error _, .ok _ => isFalse (fun hh => Except.noConfusion hh)
  | .ok _, .error _ => isFalse (fun hh => Except.noConfusion hh)
  | .ok a, .ok a' =>
    match decEq a a' with
    | isTrue h => isTrue (by rw [h])
    | isFalse h => isFalse (fun hh => h (by injection hh))

/-- The confidence of the record returned by a merge call
(`none` when the call raised). -/
def exceptConfidence (r : Except String MergedExample) : Option ℚ :=
  match r with
  | Except.ok m => mergedConfidence m
  | Except.error _ => none

/-- The notes of the record returned by a merge call
(`none` when the call raised). -/
def exceptNotes (r : Except String MergedExample) : Option String :=
  match r with
  | Except.ok m => some m.notes
  | Except.error _ => none

/-! ### Concrete fixtures used by counterexamples and witnesses -/

/-- Fixture: a snippet with id `a`. -/
def fixA : CodeExample :=
  { id := "a", code := "print(1)".data, language := "python", context := none,
    sourceFile := "f.md", lineNumber := none, heading := none, tags := [] }

/-- Fixture: a different snippet that reuses id `a`. -/
def fixADup : CodeExample :=
  { id := "a", code := "zzz qqq www".data, language := "python", context := none,
    sourceFile := "g.md", lineNumber := none, heading := none, tags := [] }

/-- Fixture: a comment-only snippet (normalizes to the empty string). -/
def fixCmtA : CodeExample :=
  { id := "a", code := "#a".data, language := "python", context := none,
    sourceFile := "f.md", lineNumber := none, heading := none, tags := [] }

/-- Fixture: another comment-only snippet (same empty normalization). -/
def fixCmtB : CodeExample :=
  { id := "b", code := "#b".data, language := "python", context := none,
    sourceFile := "f.md", lineNumber := none, heading := none, tags := [] }

/-- Fixture: a connect snippet. -/
def fixX : CodeExample :=
  { id := "x", code := "IB.connect(1)".data, language := "python", context := none,
    sourceFile := "f.md", lineNumber := none, heading := none, tags := [] }

/-- Fixture: the same snippet up to case and a trailing comment. -/
def fixY : CodeExample :=
  { id := "y", code := "ib.connect(1)  # retry".data, language := "python",
    context := none, sourceFile := "g.md", lineNumber := none, heading := none,
    tags := [] }

/-- Fixture: first member of a two-snippet cluster for the merge claims. -/
def fixM1 : CodeExample :=
  { id := "e1", code := "code one".data, language := "python", context := none,
    sourceFile := "f.md", lineNumber := none, heading := none, tags := ["t"] }

/-- Fixture: second member of a two-snippet cluster for the merge claims. -/
def fixM2 : CodeExample :=
  { id := "e2", code := "code two".data, language := "python", context := none,
    sourceFile := "g.md", lineNumber := none, heading := none, tags := [] }

/-- Fixture: a merged record with 5 sources but low merge confidence. -/
def fixBexConf : BuilderExample :=
  { id := "x", code := [], language := "python", description := [],
    tags := [], sources := ["s1", "s2", "s3", "s4", "s5"], confidence := some 0.5 }

/-- Fixture: a merged record tagged `paper`. -/
def fixBexPaper : BuilderExample :=
  { id := "p1", code := [], language := "python", description := [],
    tags := ["paper".data], sources := ["s1"], confidence := none }

/-- Fixture: a merged record tagged `papers` (same frequency, colliding
consonant code `ppr`). -/
def fixBexPapers : BuilderExample :=
  { id := "p2", code := [], language := "python", description := [],
    tags := ["papers".data], sources := ["s2"], confidence := none }

/-- Fixture: a merged record whose topic is `B`, seen first, 1 source. -/
def fixBexB : BuilderExample :=
  { id := "b1", code := [], language := "python", description := [],
    tags := ["b".data], sources := ["s1"], confidence := none }

/-- Fixture: a merged record whose topic is `A`, seen second, 3 sources. -/
def fixBexA : BuilderExample :=
  { id := "a1", code := [], language := "python", description := [],
    tags := ["a".data], sources := ["s2", "s3", "s4"], confidence := none }

/-- Fixture: a script cluster for operation `a`, one edge-case record. -/
def fixOpA : OpCluster :=
  { operation := "a".data, a0 := [], a1 := [], a2 := [],
    a3 := [("x1".data, 1)] }

/-- Fixture: a script cluster for operation `b`, one edge-case record (same
total mentions as `fixOpA`). -/
def fixOpB : OpCluster :=
  { operation := "b".data, a0 := [], a1 := [], a2 := [],
    a3 := [("x2".data, 1)] }

/-- Fixture: a script cluster for operation `ab`, iterated first in its
letter bucket. -/
def fixOpAB : OpCluster :=
  { operation := "ab".data, a0 := [], a1 := [], a2 := [],
    a3 := [("x3".data, 1)] }

/-- Fixture: a script cluster for operation `aa`, iterated second in its
letter bucket. -/
def fixOpAA : OpCluster :=
  { operation := "aa".data, a0 := [], a1 := [], a2 := [],
    a3 := [("x4".data, 1)] }

/-! ## Lemmas and claim theorems -/

/-! ### Character-level lemmas -/

theorem pyLowerChar_ne_hash {c : Char} (h : c ≠ '#') : pyLowerChar c ≠ '#' := by
  unfold pyLowerChar
  split <;> first | decide | exact h

theorem isWs_pyLowerChar (c : Char) : isWs (pyLowerChar c) = isWs c := by
  unfold pyLowerChar
  split <;> rfl

theorem pyLowerChar_eq_self {c : Char}
    (h : c ∉ ['A','B','C','D','E','F','G','H','I','J','K','L','M',
              'N','O','P','Q','R','S','T','U','V','W','X','Y','Z']) :
    pyLowerChar c = c := by
  unfold pyLowerChar
  split <;> first | rfl | (exact absurd (by decide) h)

theorem pyLowerChar_idem (c : Char) : pyLowerChar (pyLowerChar c) = pyLowerChar c := by
  by_cases h : c ∈ ['A','B','C','D','E','F','G','H','I','J','K','L','M',
                    'N','O','P','Q','R','S','T','U','V','W','X','Y','Z']
  · fin_cases h <;> rfl
  · rw [pyLowerChar_eq_self h, pyLowerChar_eq_self h]

/-! ### Comment-stripping lemmas -/

theorem hash_not_mem_stripComments (s : List Char) :
    ∀ b, '#' ∉ stripComments b s := by
  induction s with
  | nil => intro b; cases b <;> simp [stripComments]
  | cons c cs ih =>
    intro b
    cases b with
    | false =>
      simp only [stripComments]
      split
      · exact ih true
      · rename_i hc
        intro hmem
        rcases List.mem_cons.mp hmem with h | h
        · exact hc h.symm
        · exact ih false h
    | true =>
      simp only [stripComments]
      split
      · rename_i hc
        intro hmem
        rcases List.mem_cons.mp hmem with h | h
        · rw [hc] at h
          exact absurd h (by decide)
        · exact ih false h
      · exact ih true

theorem stripComments_eq_self {s : List Char} (h : '#' ∉ s) :
    stripComments false s = s := by
  induction s with
  | nil => rfl
  | cons c cs ih =>
    simp only [List.mem_cons, not_or] at h
    rw [stripComments, if_neg (fun hh => h.1 hh.symm)]
    exact congrArg (c :: ·) (ih h.2)

/-! ### Whitespace-collapsing lemmas -/

theorem mem_collapseWs {c : Char} :
    ∀ b (s : List Char), c ∈ collapseWs b s → c = ' ' ∨ c ∈ s := by
  intro b s
  induction s generalizing b with
  | nil => simp [collapseWs]
  | cons d ds ih =>
    simp only [collapseWs]
    split
    · split
      · intro h
        rcases ih true h with h' | h'
        · exact Or.inl h'
        · exact Or.inr (List.mem_cons_of_mem _ h')
      · intro h
        rcases List.mem_cons.mp h with h' | h'
        · exact Or.inl h'
        · rcases ih true h' with h'' | h''
          · exact Or.inl h''
          · exact Or.inr (List.mem_cons_of_mem _ h'')
    · intro h
      rcases List.mem_cons.mp h with h' | h'
      · exact Or.inr (h' ▸ List.mem_cons_self _ _)
      · rcases ih false h' with h'' | h''
        · exact Or.inl h''
        · exact Or.inr (List.mem_cons_of_mem _ h'')

theorem ws_mem_collapseWs_eq_space {c : Char} :
    ∀ b (s : List Char), c ∈ collapseWs b s → isWs c = true → c = ' ' := by
  intro b s
  induction s generalizing b with
  | nil => simp [collapseWs]
  | cons d ds ih =>
    simp only [collapseWs]
    split
    · split
      · exact ih true
      · intro h hw
        rcases List.mem_cons.mp h with h' | h'
        · exact h'
        · exact ih true h' hw
    · intro h hw
      rcases List.mem_cons.mp h with h' | h'
      · rename_i hd
        subst h'
        exact absurd hw (by simp [hd])
      · exact ih false h' hw

theorem head_collapseWs_true_not_ws (s : List Char) :
    ∀ {c : Char}, (collapseWs true s).head? = some c → isWs c = false := by
  induction s with
  | nil => intro c h; simp [collapseWs] at h
  | cons d ds ih =>
    intro c h
    simp only [collapseWs] at h
    split at h
    · exact ih h
    · rename_i hd
      simp only [List.head?_cons, Option.some.injEq] at h
      subst h
      simpa using hd

theorem chain'_collapseWs :
    ∀ b (s : List Char),
      List.Chain' (fun a b' => ¬(isWs a = true ∧ isWs b' = true)) (collapseWs b s) := by
  intro b s
  induction s generalizing b with
  | nil => cases b <;> simp [collapseWs]
  | cons d ds ih =>
    simp only [collapseWs]
    split
    · split
      · exact ih true
      · refine List.chain'_cons'.mpr ⟨?_, ih true⟩
        intro y hy
        have := head_collapseWs_true_not_ws ds hy
        simp [this]
    · refine List.chain'_cons'.mpr ⟨?_, ih false⟩
      intro y hy
      rename_i hd
      simp [hd]

theorem collapseWs_eq_self :
    ∀ (s : List Char), (∀ c ∈ s, isWs c = true → c = ' ') →
      List.Chain' (fun a b' => ¬(isWs a = true ∧ isWs b' = true)) s →
      ∀ b, (b = true → ∀ c, s.head? = some c → isWs c = false) →
      collapseWs b s = s := by
  intro s
  induction s with
  | nil => intro _ _ b _; cases b <;> rfl
  | cons d ds ih =>
    intro hws hchain b hhead
    simp only [collapseWs]
    split
    · rename_i hd
      cases b with
      | true => exact absurd (hhead rfl d rfl) (by simp [hd])
      | false =>
        rw [if_neg (by decide : ¬(false = true))]
        have hd' : d = ' ' := hws d (List.mem_cons_self _ _) hd
        have htail : collapseWs true ds = ds := by
          refine ih (fun c hc => hws c (List.mem_cons_of_mem _ hc))
            hchain.tail true (fun _ c hc => ?_)
          by_contra hcw
          have hrel := List.chain'_cons'.mp hchain
          exact hrel.1 c hc ⟨hd, by simpa using hcw⟩
        rw [htail, hd']
    · rename_i hd
      have htail : collapseWs false ds = ds :=
        ih (fun c hc => hws c (List.mem_cons_of_mem _ hc)) hchain.tail false (by simp)
      rw [htail]

/-! ### Strip lemmas -/

theorem mem_dropTrailWs {c : Char} : ∀ {s : List Char}, c ∈ dropTrailWs s → c ∈ s := by
  intro s
  induction s with
  | nil => simp [dropTrailWs]
  | cons d ds ih =>
    simp only [dropTrailWs]
    split
    · simp
    · intro h
      rcases List.mem_cons.mp h with h' | h'
      · exact h' ▸ List.mem_cons_self _ _
      · exact List.mem_cons_of_mem _ (ih h')

theorem head?_dropTrailWs (s : List Char) :
    dropTrailWs s = [] ∨ (dropTrailWs s).head? = s.head? := by
  cases s with
  | nil => exact Or.inl rfl
  | cons d ds =>
    simp only [dropTrailWs]
    split
    · exact Or.inl rfl
    · exact Or.inr rfl

theorem chain'_dropTrailWs {R : Char → Char → Prop} :
    ∀ {s : List Char}, List.Chain' R s → List.Chain' R (dropTrailWs s) := by
  intro s
  induction s with
  | nil => intro h; exact h
  | cons d ds ih =>
    intro h
    simp only [dropTrailWs]
    split
    · exact List.chain'_nil
    · refine List.chain'_cons'.mpr ⟨?_, ih h.tail⟩
      intro y hy
      rcases head?_dropTrailWs ds with he | he
      · simp [he] at hy
      · exact (List.chain'_cons'.mp h).1 y (he ▸ hy)

theorem getLast?_dropTrailWs_not_ws :
    ∀ {s : List Char} {c : Char}, (dropTrailWs s).getLast? = some c → isWs c = false := by
  intro s
  induction s with
  | nil => intro c h; simp [dropTrailWs] at h
  | cons d ds ih =>
    intro c h
    simp only [dropTrailWs] at h
    split at h
    · simp at h
    · rename_i hcond
      rcases hr : dropTrailWs ds with _ | ⟨e, es⟩
      · rw [hr] at h hcond
        simp only [List.getLast?_singleton, Option.some.injEq] at h
        subst h
        simpa using hcond
      · rw [hr] at h
        rw [List.getLast?_cons_cons] at h
        exact ih (hr ▸ h)

theorem dropTrailWs_eq_self :
    ∀ {s : List Char}, (∀ c, s.getLast? = some c → isWs c = false) →
      dropTrailWs s = s := by
  intro s
  induction s with
  | nil => intro _; rfl
  | cons d ds ih =>
    intro h
    simp only [dropTrailWs]
    cases ds with
    | nil =>
      have := h d (by simp)
      simp [dropTrailWs, this]
    | cons e es =>
      have htail : dropTrailWs (e :: es) = e :: es := by
        refine ih (fun c hc => h c ?_)
        rw [List.getLast?_cons_cons]
        cases es <;> simp_all
      rw [htail]
      simp

theorem mem_dropWhile_ws {c : Char} {s : List Char}
    (h : c ∈ s.dropWhile isWs) : c ∈ s := by
  induction s with
  | nil => simp [List.dropWhile] at h
  | cons d ds ih =>
    rw [List.dropWhile_cons] at h
    split at h
    · exact List.mem_cons_of_mem _ (ih h)
    · exact h

theorem chain'_dropWhile_ws {R : Char → Char → Prop} :
    ∀ {s : List Char}, List.Chain' R s → List.Chain' R (s.dropWhile isWs) := by
  intro s
  induction s with
  | nil => intro h; exact h
  | cons d ds ih =>
    intro h
    rw [List.dropWhile_cons]
    split
    · exact ih h.tail
    · exact h

theorem head?_dropWhile_ws_not_ws :
    ∀ {s : List Char} {c : Char}, (s.dropWhile isWs).head? = some c → isWs c = false := by
  intro s
  induction s with
  | nil => intro c h; simp [List.dropWhile] at h
  | cons d ds ih =>
    intro c h
    rw [List.dropWhile_cons] at h
    split at h
    · exact ih h
    · rename_i hd
      simp only [List.head?_cons, Option.some.injEq] at h
      subst h
      simpa using hd

theorem dropWhile_ws_eq_self {s : List Char}
    (h : ∀ c, s.head? = some c → isWs c = false) : s.dropWhile isWs = s := by
  cases s with
  | nil => rfl
  | cons d ds =>
    rw [List.dropWhile_cons, if_neg]
    simp [h d rfl]

/-! ### The normalized form and idempotency of the Normalizer (claim C9) -/

theorem mem_normalizeCode {c : Char} {s : List Char} (h : c ∈ normalizeCode s) :
    ∃ d, c = pyLowerChar d ∧ (d = ' ' ∨ d ∈ stripComments false s) := by
  simp only [normalizeCode, pyStrip, List.mem_map] at h
  obtain ⟨d, hd, hdc⟩ := h
  exact ⟨d, hdc.symm, mem_collapseWs false _ (mem_dropWhile_ws (mem_dropTrailWs hd))⟩

theorem hash_not_mem_normalizeCode (s : List Char) : '#' ∉ normalizeCode s := by
  intro h
  obtain ⟨d, hc, hd⟩ := mem_normalizeCode h
  rcases hd with hd | hd
  · subst hd; exact absurd hc.symm (by decide)
  · have : d ≠ '#' := fun he => hash_not_mem_stripComments s false (he ▸ hd)
    exact pyLowerChar_ne_hash this hc.symm

theorem ws_mem_normalizeCode_eq_space {c : Char} {s : List Char}
    (h : c ∈ normalizeCode s) (hw : isWs c = true) : c = ' ' := by
  simp only [normalizeCode, pyStrip, List.mem_map] at h
  obtain ⟨d, hd, hdc⟩ := h
  have hdz := mem_dropWhile_ws (mem_dropTrailWs hd)
  have hwd : isWs d = true := by rw [← isWs_pyLowerChar d, hdc, hw]
  have hd' : d = ' ' := ws_mem_collapseWs_eq_space false _ hdz hwd
  rw [← hdc, hd']
  decide

theorem chain'_normalizeCode (s : List Char) :
    List.Chain' (fun a b' => ¬(isWs a = true ∧ isWs b' = true)) (normalizeCode s) := by
  have h0 := chain'_collapseWs false (stripComments false s)
  have h1 := chain'_dropTrailWs (chain'_dropWhile_ws h0)
  rw [normalizeCode, pyStrip, List.chain'_map]
  exact h1.imp (fun a b hab => by
    rw [isWs_pyLowerChar, isWs_pyLowerChar]
    exact hab)

theorem head?_normalizeCode_not_ws {c : Char} {s : List Char}
    (h : (normalizeCode s).head? = some c) : isWs c = false := by
  rw [normalizeCode, pyStrip, List.head?_map] at h
  rcases hh : (dropTrailWs ((collapseWs false (stripComments false s)).dropWhile isWs)).head?
    with _ | d
  · rw [hh] at h; simp at h
  · rw [hh] at h
    simp only [Option.map_some', Option.some.injEq] at h
    rcases head?_dropTrailWs ((collapseWs false (stripComments false s)).dropWhile isWs)
      with he | he
    · rw [he] at hh; simp at hh
    · have := head?_dropWhile_ws_not_ws (he ▸ hh)
      rw [← h, isWs_pyLowerChar]
      exact this

theorem getLast?_normalizeCode_not_ws {c : Char} {s : List Char}
    (h : (normalizeCode s).getLast? = some c) : isWs c = false := by
  rw [normalizeCode, pyStrip, List.getLast?_map] at h
  rcases hh : (dropTrailWs ((collapseWs false (stripComments false s)).dropWhile isWs)).getLast?
    with _ | d
  · rw [hh] at h; simp at h
  · rw [hh] at h
    simp only [Option.map_some', Option.some.injEq] at h
    have := getLast?_dropTrailWs_not_ws hh
    rw [← h, isWs_pyLowerChar]
    exact this

theorem lower_stable_normalizeCode {c : Char} {s : List Char}
    (h : c ∈ normalizeCode s) : pyLowerChar c = c := by
  simp only [normalizeCode, List.mem_map] at h
  obtain ⟨d, _, hdc⟩ := h
  rw [← hdc]
  exact pyLowerChar_idem d

/-- C9: for every string `x`, `_normalize_code` is idempotent:
`_normalize_code(_normalize_code(x)) == _normalize_code(x)`. -/
theorem normalizeCode_idempotent (s : List Char) :
    normalizeCode (normalizeCode s) = normalizeCode s := by
  have h1 : stripComments false (normalizeCode s) = normalizeCode s :=
    stripComments_eq_self (hash_not_mem_normalizeCode s)
  have h2 : collapseWs false (normalizeCode s) = normalizeCode s := by
    refine collapseWs_eq_self (normalizeCode s)
      (fun c hc => ws_mem_normalizeCode_eq_space hc)
      (chain'_normalizeCode s) false (by simp)
  have h3 : (normalizeCode s).dropWhile isWs = normalizeCode s :=
    dropWhile_ws_eq_self (fun c hc => head?_normalizeCode_not_ws hc)
  have h4 : dropTrailWs (normalizeCode s) = normalizeCode s :=
    dropTrailWs_eq_self (fun c hc => getLast?_normalizeCode_not_ws hc)
  have h5 : (normalizeCode s).map pyLowerChar = normalizeCode s := by
    rw [show (normalizeCode s).map pyLowerChar =
        (normalizeCode s).map id from
      List.map_congr_left (fun c hc => lower_stable_normalizeCode hc), List.map_id]
  calc normalizeCode (normalizeCode s)
      = (pyStrip (collapseWs false (stripComments false (normalizeCode s)))).map
          pyLowerChar := rfl
    _ = normalizeCode s := by rw [h1, h2, pyStrip, h3, h4, h5]

/-! ### Longest-common-subsequence lemmas (for the InDel ratio) -/

theorem lcs_nil_right (l : List Char) : lcs l [] = 0 := by
  cases l <;> rfl

theorem lcs_cons_cons (a : Char) (as : List Char) (b : Char) (bs : List Char) :
    lcs (a :: as) (b :: bs) =
      if a = b then lcs as bs + 1 else max (lcs (a :: as) bs) (lcs as (b :: bs)) := rfl

theorem lcs_le_left : ∀ (x y : List Char), lcs x y ≤ x.length := by
  intro x
  induction x with
  | nil => intro y; simp [lcs]
  | cons a as ih =>
    intro y
    induction y with
    | nil => rw [lcs_nil_right]; exact Nat.zero_le _
    | cons b bs ihy =>
      rw [lcs_cons_cons]
      split
      · simpa using Nat.succ_le_succ (ih bs)
      · exact max_le (by simpa using ihy) (Nat.le_succ_of_le (ih (b :: bs)))

theorem lcs_le_right : ∀ (x y : List Char), lcs x y ≤ y.length := by
  intro x
  induction x with
  | nil => intro y; simp [lcs]
  | cons a as ih =>
    intro y
    induction y with
    | nil => rw [lcs_nil_right]; exact Nat.zero_le _
    | cons b bs ihy =>
      rw [lcs_cons_cons]
      split
      · simpa using Nat.succ_le_succ (ih bs)
      · exact max_le (Nat.le_succ_of_le ihy) (by simpa using ih (b :: bs))

theorem lcs_self (l : List Char) : lcs l l = l.length := by
  induction l with
  | nil => rfl
  | cons a as ih => rw [lcs_cons_cons, if_pos rfl, ih, List.length_cons]

theorem lcs_comm : ∀ (x y : List Char), lcs x y = lcs y x := by
  intro x
  induction x with
  | nil => intro y; rw [lcs_nil_right]; rfl
  | cons a as ih =>
    intro y
    induction y with
    | nil => rw [lcs_nil_right]; rfl
    | cons b bs ihy =>
      rw [lcs_cons_cons, lcs_cons_cons]
      rcases eq_or_ne a b with hab | hab
      · rw [if_pos hab, if_pos hab.symm, ih bs]
      · rw [if_neg hab, if_neg (Ne.symm hab), ihy, ih (b :: bs), Nat.max_comm]

/-! ### InDel-ratio lemmas -/

theorem indelSim_nonneg (a b : List Char) : 0 ≤ indelSim a b := by
  rw [indelSim]
  split
  · norm_num
  · positivity

theorem indelSim_le_one (a b : List Char) : indelSim a b ≤ 1 := by
  rw [indelSim]
  split
  · norm_num
  · rename_i h
    have hp : (0 : ℚ) < a.length + b.length := by
      have : 0 < a.length + b.length := Nat.pos_of_ne_zero h
      exact_mod_cast this
    rw [div_le_one hp]
    have h1 := lcs_le_left a b
    have h2 := lcs_le_right a b
    have : 2 * lcs a b ≤ a.length + b.length := by omega
    exact_mod_cast this

theorem indelSim_comm (a b : List Char) : indelSim a b = indelSim b a := by
  rw [indelSim, indelSim, lcs_comm, Nat.add_comm (a.length), add_comm (a.length : ℚ)]

theorem indelSim_self (a : List Char) : indelSim a a = 1 := by
  rw [indelSim]
  split
  · rfl
  · rename_i h
    have hl : a.length ≠ 0 := by omega
    rw [lcs_self]
    have : ((a.length : ℚ) + a.length) ≠ 0 := by
      have : (a.length : ℚ) ≠ 0 := Nat.cast_ne_zero.mpr hl
      positivity
    field_simp
    ring

/-! ### Token-metric lemmas -/

theorem tokenSortSim_nonneg (a b : List Char) : 0 ≤ tokenSortSim a b :=
  indelSim_nonneg _ _

theorem tokenSortSim_le_one (a b : List Char) : tokenSortSim a b ≤ 1 :=
  indelSim_le_one _ _

theorem tokenSortSim_comm (a b : List Char) : tokenSortSim a b = tokenSortSim b a :=
  indelSim_comm _ _

theorem tokenSortSim_self (a : List Char) : tokenSortSim a a = 1 :=
  indelSim_self _

theorem tokensOf_sorted (s : List Char) : (tokensOf s).Sorted (· ≤ ·) :=
  List.sorted_insertionSort _ _

theorem tokensOf_nodup (s : List Char) : (tokensOf s).Nodup :=
  (List.perm_insertionSort _ _).nodup_iff.mpr (List.nodup_dedup _)

theorem sorted_inter_comm {u v : List (List Char)}
    (hu : u.Sorted (· ≤ ·)) (hv : v.Sorted (· ≤ ·))
    (hnu : u.Nodup) (hnv : v.Nodup) :
    u.filter (fun t => decide (t ∈ v)) = v.filter (fun t => decide (t ∈ u)) := by
  refine List.eq_of_perm_of_sorted ?_
    (hu.sublist (List.filter_sublist u)) (hv.sublist (List.filter_sublist v))
  refine (List.perm_ext_iff_of_nodup (hnu.filter _) (hnv.filter _)).mpr ?_
  intro x
  simp only [List.mem_filter, decide_eq_true_eq]
  exact ⟨fun ⟨h1, h2⟩ => ⟨h2, h1⟩, fun ⟨h1, h2⟩ => ⟨h2, h1⟩⟩

theorem tokenSetSim_nonneg (a b : List Char) : 0 ≤ tokenSetSim a b := by
  rw [tokenSetSim]
  split
  · norm_num
  · exact le_max_of_le_left (indelSim_nonneg _ _)

theorem tokenSetSim_le_one (a b : List Char) : tokenSetSim a b ≤ 1 := by
  rw [tokenSetSim]
  split
  · norm_num
  · exact max_le (indelSim_le_one _ _) (max_le (indelSim_le_one _ _) (indelSim_le_one _ _))

theorem tokenSetSim_comm (a b : List Char) : tokenSetSim a b = tokenSetSim b a := by
  have hsect : (tokensOf a).filter (fun t => decide (t ∈ tokensOf b)) =
      (tokensOf b).filter (fun t => decide (t ∈ tokensOf a)) :=
    sorted_inter_comm (tokensOf_sorted a) (tokensOf_sorted b)
      (tokensOf_nodup a) (tokensOf_nodup b)
  cases hea : (tokensOf a).isEmpty with
  | true => rw [tokenSetSim, tokenSetSim, if_pos (by simp [hea]), if_pos (by simp [hea])]
  | false =>
    cases heb : (tokensOf b).isEmpty with
    | true => rw [tokenSetSim, tokenSetSim, if_pos (by simp [heb]), if_pos (by simp [heb])]
    | false =>
      simp only [tokenSetSim, hea, heb, Bool.or_self, Bool.false_eq_true, if_false, hsect]
      rw [indelSim_comm
        (joinTokens (List.filter (fun t => decide (t ∈ tokensOf a)) (tokensOf b) ++
          List.filter (fun t => decide (t ∉ tokensOf a)) (tokensOf b)))
        (joinTokens (List.filter (fun t => decide (t ∈ tokensOf a)) (tokensOf b) ++
          List.filter (fun t => decide (t ∉ tokensOf b)) (tokensOf a)))]
      exact max_left_comm _ _ _

theorem tokenSetSim_self {a : List Char} (h : ¬(tokensOf a).isEmpty) :
    tokenSetSim a a = 1 := by
  rw [tokenSetSim]
  simp only [h]
  rw [if_neg (by simp [h])]
  have hsect : (tokensOf a).filter (fun t => decide (t ∈ tokensOf a)) = tokensOf a :=
    List.filter_eq_self.mpr (fun x hx => by simpa using hx)
  have hdiff : (tokensOf a).filter (fun t => decide (t ∉ tokensOf a)) = [] :=
    List.filter_eq_nil_iff.mpr (fun x hx => by simp [hx])
  rw [hsect, hdiff, List.append_nil, indelSim_self, max_self, max_self]

/-! ### The similarity contract (claim C6) -/

theorem calculateSimilarity_nonneg (a b : List Char) : 0 ≤ calculateSimilarity a b := by
  rw [calculateSimilarity]
  have h1 := indelSim_nonneg (normalizeCode a) (normalizeCode b)
  have h2 := tokenSortSim_nonneg (normalizeCode a) (normalizeCode b)
  have h3 := tokenSetSim_nonneg (normalizeCode a) (normalizeCode b)
  have w1 : (0 : ℚ) ≤ wSeq := by norm_num [wSeq]
  have w2 : (0 : ℚ) ≤ wSort := by norm_num [wSort]
  have w3 : (0 : ℚ) ≤ wSet := by norm_num [wSet]
  exact add_nonneg (add_nonneg (mul_nonneg h1 w1) (mul_nonneg h2 w2)) (mul_nonneg h3 w3)

theorem calculateSimilarity_le_one (a b : List Char) : calculateSimilarity a b ≤ 1 := by
  rw [calculateSimilarity]
  have h1 := indelSim_le_one (normalizeCode a) (normalizeCode b)
  have h2 := tokenSortSim_le_one (normalizeCode a) (normalizeCode b)
  have h3 := tokenSetSim_le_one (normalizeCode a) (normalizeCode b)
  have h1' := indelSim_nonneg (normalizeCode a) (normalizeCode b)
  have h2' := tokenSortSim_nonneg (normalizeCode a) (normalizeCode b)
  have h3' := tokenSetSim_nonneg (normalizeCode a) (normalizeCode b)
  calc indelSim (normalizeCode a) (normalizeCode b) * wSeq +
        tokenSortSim (normalizeCode a) (normalizeCode b) * wSort +
        tokenSetSim (normalizeCode a) (normalizeCode b) * wSet
      ≤ 1 * wSeq + 1 * wSort + 1 * wSet :=
        add_le_add (add_le_add
          (mul_le_mul_of_nonneg_right h1 (by norm_num [wSeq]))
          (mul_le_mul_of_nonneg_right h2 (by norm_num [wSort])))
          (mul_le_mul_of_nonneg_right h3 (by norm_num [wSet]))
    _ = 1 := by norm_num [wSeq, wSort, wSet]

theorem calculateSimilarity_comm (a b : List Char) :
    calculateSimilarity a b = calculateSimilarity b a := by
  rw [calculateSimilarity, calculateSimilarity, indelSim_comm, tokenSortSim_comm,
    tokenSetSim_comm]

theorem splitTokensAux_ne_nil {acc : List Char} (hacc : acc ≠ []) :
    ∀ s, splitTokensAux s acc ≠ [] := by
  intro s
  induction s generalizing acc with
  | nil =>
    cases acc with
    | nil => exact absurd rfl hacc
    | cons x xs => simp [splitTokensAux]
  | cons c cs ih =>
    simp only [splitTokensAux]
    split
    · rw [if_neg (by simpa using hacc)]
      simp
    · exact ih (by simp)

theorem splitTokens_ne_nil_of_norm {s : List Char} (h : normalizeCode s ≠ []) :
    splitTokens (normalizeCode s) ≠ [] := by
  rcases hn : normalizeCode s with _ | ⟨c, cs⟩
  · exact absurd hn h
  · have hc : isWs c = false := head?_normalizeCode_not_ws (by rw [hn]; rfl)
    rw [splitTokens, splitTokensAux]
    rw [if_neg (by simp [hc])]
    exact splitTokensAux_ne_nil (by simp) cs

theorem tokensOf_not_empty_of_norm {s : List Char} (h : normalizeCode s ≠ []) :
    ¬(tokensOf (normalizeCode s)).isEmpty := by
  have h1 : splitTokens (normalizeCode s) ≠ [] := splitTokens_ne_nil_of_norm h
  have h2 : (splitTokens (normalizeCode s)).dedup ≠ [] := by
    intro he
    rcases hx : splitTokens (normalizeCode s) with _ | ⟨x, xs⟩
    · exact h1 hx
    · have : x ∈ (splitTokens (normalizeCode s)).dedup := by
        rw [List.mem_dedup, hx]; exact List.mem_cons_self _ _
      rw [he] at this
      simp at this
  intro he
  have hp := List.perm_insertionSort (fun x y : List Char => x ≤ y)
    (splitTokens (normalizeCode s)).dedup
  rw [tokensOf] at he
  rw [List.isEmpty_iff] at he
  rw [sortToks] at he
  rw [he] at hp
  exact h2 hp.symm.eq_nil

theorem calculateSimilarity_self {a : List Char} (h : normalizeCode a ≠ []) :
    calculateSimilarity a a = 1 := by
  rw [calculateSimilarity, indelSim_self, tokenSortSim_self,
    tokenSetSim_self (tokensOf_not_empty_of_norm h)]
  norm_num [wSeq, wSort, wSet]

/-- C6 counterexample: similarity of the snippet `#` with itself is 0.8, not
1.0 — its normalized text is empty, and `token_set_ratio` scores empty token
sets 0, so `similarity(a,a) == 1.0` fails for snippets that normalize to the
empty string. -/
theorem similarity_self_empty_counterexample :
    normalizeCode "#".data = [] ∧
    calculateSimilarity "#".data "#".data = 0.8 ∧ (0.8 : ℚ) ≠ 1 := by
  refine ⟨by decide, ?_, by norm_num⟩
  have h : normalizeCode "#".data = [] := by decide
  simp only [calculateSimilarity, h]
  have e1 : indelSim [] [] = 1 := rfl
  have e2 : tokenSortSim [] [] = 1 := rfl
  have e3 : tokenSetSim [] [] = 0 := rfl
  rw [e1, e2, e3]
  norm_num [wSeq, wSort, wSet]

/-- C6 (amended): for all strings `a`,`b`, `similarity(a,b)` lies in `[0,1]`
and is symmetric, and the metric weights 0.5/0.3/0.2 sum to 1.0;
`similarity(a,a) = 1.0` holds whenever the normalized text of `a` is
non-empty (when it is empty, the token-set metric scores 0 and the
self-similarity is 0.8 instead). -/
theorem similarity_contract (a b : List Char) :
    (0 ≤ calculateSimilarity a b ∧ calculateSimilarity a b ≤ 1) ∧
    calculateSimilarity a b = calculateSimilarity b a ∧
    (normalizeCode a ≠ [] → calculateSimilarity a a = 1) ∧
    wSeq + wSort + wSet = 1 :=
  ⟨⟨calculateSimilarity_nonneg a b, calculateSimilarity_le_one a b⟩,
   calculateSimilarity_comm a b,
   fun h => calculateSimilarity_self h,
   by norm_num [wSeq, wSort, wSet]⟩

/-- Witness for C6: at the concrete snippet `x`, whose normalized text is
non-empty, the self-similarity is exactly 1. -/
theorem similarity_contract_witness :
    normalizeCode "x".data ≠ [] ∧ calculateSimilarity "x".data "x".data = 1 :=
  ⟨by decide, (similarity_contract "x".data "x".data).2.2.1 (by decide)⟩

/-! ### Cluster-builder characterization (claims C3 and C4)

`collectSimilar` threads the processed set through the scan; when the ids in
the scanned list are pairwise distinct, the ids added during the scan cannot
block a later element, and the collected members are exactly a filter. -/

theorem collectSimilar_snd_mem (t : ℚ) (seed : CodeExample) (i : Nat) :
    ∀ (L : List (Nat × CodeExample)) (P : List String) (x : String),
      (x ∈ (collectSimilar t seed i L P).2 ↔
        x ∈ (collectSimilar t seed i L P).1.map (·.id) ∨ x ∈ P) := by
  intro L
  induction L with
  | nil => intro P x; simp [collectSimilar]
  | cons p rest ih =>
    intro P x
    obtain ⟨j, o⟩ := p
    rw [collectSimilar]
    split
    · rw [ih]
    · split
      · simp only [List.map_cons, List.mem_cons]
        rw [ih (o.id :: P) x]
        simp only [List.mem_cons]
        tauto
      · rw [ih]

theorem collectSimilar_fst_eq (t : ℚ) (seed : CodeExample) (i : Nat) :
    ∀ (L : List (Nat × CodeExample)) (P : List String),
      (L.map (fun p => p.2.id)).Nodup →
      (collectSimilar t seed i L P).1 =
        (L.filter (fun p => decide (¬ i = p.1 ∧ p.2.id ∉ P ∧
          t ≤ calculateSimilarity seed.code p.2.code))).map (·.2) := by
  intro L
  induction L with
  | nil => intro P _; simp [collectSimilar]
  | cons p rest ih =>
    intro P hnd
    obtain ⟨j, o⟩ := p
    simp only [List.map_cons, List.nodup_cons] at hnd
    rw [collectSimilar]
    split
    · rename_i hskip
      rw [List.filter_cons_of_neg (by
        simp only [decide_eq_true_eq, not_and, not_not]
        intro hij
        rcases hskip with h | h
        · exact absurd h hij
        · intro hP; exact absurd h hP)]
      exact ih P hnd.2
    · rename_i hskip
      push_neg at hskip
      split
      · rename_i hsim
        rw [List.filter_cons_of_pos (by
          simp only [decide_eq_true_eq]
          exact ⟨hskip.1, hskip.2, hsim⟩)]
        simp only [List.map_cons, List.cons.injEq, true_and]
        rw [ih (o.id :: P) hnd.2]
        congr 1
        refine List.filter_congr (fun q hq => ?_)
        have hqo : q.2.id ≠ o.id := by
          intro he
          exact hnd.1 (he ▸ List.mem_map_of_mem (fun p => p.2.id) hq)
        rw [decide_eq_decide]
        simp only [List.mem_cons]
        constructor
        · intro ⟨h1, h2, h3⟩
          exact ⟨h1, fun hm => h2 (Or.inr hm), h3⟩
        · intro ⟨h1, h2, h3⟩
          refine ⟨h1, fun hm => ?_, h3⟩
          rcases hm with hm | hm
          · exact hqo hm
          · exact h2 hm
      · rename_i hsim
        rw [List.filter_cons_of_neg (by
          simp only [decide_eq_true_eq, not_and]
          intro _ _
          exact hsim)]
        exact ih P hnd.2

theorem collectSimilar_over_all (t : ℚ) (ex : CodeExample) (i : Nat)
    (pre rest' : List (Nat × CodeExample)) (P1 : List String)
    (hpre : ∀ p ∈ pre, p.2.id ∈ P1)
    (hnodup : ((pre ++ (i, ex) :: rest').map (fun p => p.2.id)).Nodup) :
    (collectSimilar t ex i (pre ++ (i, ex) :: rest') P1).1 =
      (rest'.filter (fun p => decide (¬ i = p.1 ∧ p.2.id ∉ P1 ∧
        t ≤ calculateSimilarity ex.code p.2.code))).map (·.2) := by
  rw [collectSimilar_fst_eq t ex i _ P1 hnodup, List.filter_append]
  have hpre' : pre.filter (fun p => decide (¬ i = p.1 ∧ p.2.id ∉ P1 ∧
      t ≤ calculateSimilarity ex.code p.2.code)) = [] := by
    refine List.filter_eq_nil_iff.mpr (fun p hp => ?_)
    simp only [decide_eq_true_eq, not_and]
    intro _ hP
    exact absurd (hpre p hp) hP
  rw [hpre', List.filter_cons_of_neg (by simp), List.nil_append]

theorem filter_split_perm {α : Type} (p q : α → Bool) (l : List α) :
    List.Perm (l.filter (fun a => p a && q a) ++ l.filter (fun a => p a && !(q a)))
      (l.filter p) := by
  induction l with
  | nil => simp
  | cons a l ih =>
    cases hp : p a <;> cases hq : q a <;>
      simp only [List.filter_cons, hp, hq, Bool.and_true, Bool.and_false,
        Bool.true_and, Bool.false_and, Bool.not_true, Bool.not_false, if_true, if_false,
        cond_true, cond_false]
    · exact ih
    · exact ih
    · exact List.perm_middle.trans (ih.cons a)
    · exact (List.cons_append a _ _) ▸ (ih.cons a)

theorem buildClusters_map_examples_acc (t : ℚ) (all : List (Nat × CodeExample)) :
    ∀ (rest : List (Nat × CodeExample)) (P : List String) (acc : List DuplicateCluster),
      (buildClusters t all rest P acc).map (·.examples) =
        (acc.reverse).map (·.examples) ++ (buildClusters t all rest P []).map (·.examples) := by
  intro rest
  induction rest with
  | nil => intro P acc; simp [buildClusters]
  | cons p rest' ih =>
    intro P acc
    obtain ⟨i, ex⟩ := p
    rw [buildClusters, buildClusters]
    split
    · exact ih P acc
    · rw [ih _ (_ :: acc), ih _ [_]]
      simp only [List.reverse_cons, List.map_append, List.map_cons, List.map_nil,
        List.reverse_nil, List.nil_append, List.append_assoc]

theorem buildClusters_flat_perm (t : ℚ) (all : List (Nat × CodeExample))
    (hids : (all.map (fun p => p.2.id)).Nodup)
    (hidx : (all.map Prod.fst).Nodup) :
    ∀ (rest pre : List (Nat × CodeExample)) (P : List String),
      all = pre ++ rest →
      (∀ p ∈ pre, p.2.id ∈ P) →
      List.Perm (((buildClusters t all rest P []).map (·.examples)).flatten)
        ((rest.filter (fun p => decide (p.2.id ∉ P))).map (·.2)) := by
  intro rest
  induction rest with
  | nil =>
    intro pre P _ _
    simp [buildClusters]
  | cons hd rest' ih =>
    intro pre P happ hpre
    obtain ⟨i, ex⟩ := hd
    rw [buildClusters]
    split
    · rename_i hP
      rw [List.filter_cons_of_neg (by simpa using hP)]
      refine ih (pre ++ [(i, ex)]) P (by simpa using happ) ?_
      intro p hp
      rcases List.mem_append.mp hp with h | h
      · exact hpre p h
      · simp only [List.mem_singleton] at h
        subst h
        exact hP
    · rename_i hP
      have hP' : ex.id ∉ P := hP
      have hids' : ((pre ++ (i, ex) :: rest').map (fun p => p.2.id)).Nodup := happ ▸ hids
      have hidx' : ((pre ++ (i, ex) :: rest').map Prod.fst).Nodup := happ ▸ hidx
      rw [List.map_append, List.map_cons] at hids' hidx'
      have hmid := (List.nodup_append.mp hids').2.1
      have hmid2 := (List.nodup_append.mp hidx').2.1
      have hex_notin_rest : ex.id ∉ rest'.map (fun p => p.2.id) :=
        (List.nodup_cons.mp hmid).1
      have hi_notin_rest : i ∉ rest'.map Prod.fst := (List.nodup_cons.mp hmid2).1
      have hrest_nodup : (rest'.map (fun p => p.2.id)).Nodup :=
        (List.nodup_cons.mp hmid).2
      have hM := collectSimilar_over_all t ex i pre rest' (ex.id :: P)
        (fun p hp => List.mem_cons_of_mem _ (hpre p hp))
        (by rw [← happ]; exact hids)
      rw [← happ] at hM
      have hmem2 := collectSimilar_snd_mem t ex i all (ex.id :: P)
      rw [buildClusters_map_examples_acc]
      simp only [List.reverse_cons, List.reverse_nil, List.nil_append, List.map_cons,
        List.map_nil, List.flatten_append, List.flatten_cons, List.flatten_nil,
        List.append_nil]
      have hsub : ∀ x ∈ P, x ∈ (collectSimilar t ex i all (ex.id :: P)).2 := by
        intro x hx
        exact (hmem2 x).mpr (Or.inr (List.mem_cons_of_mem _ hx))
      have hIH := ih (pre ++ [(i, ex)]) ((collectSimilar t ex i all (ex.id :: P)).2)
        (by simpa using happ)
        (by
          intro p hp
          rcases List.mem_append.mp hp with h | h
          · exact hsub _ (hpre p h)
          · simp only [List.mem_singleton] at h
            subst h
            exact (hmem2 _).mpr (Or.inr (List.mem_cons_self _ _)))
      have hq_mem : ∀ p ∈ rest', (p.2.id ∈ (collectSimilar t ex i all (ex.id :: P)).2 ↔
          (p.2.id ∉ P ∧ t ≤ calculateSimilarity ex.code p.2.code) ∨ p.2.id ∈ P) := by
        intro p hp
        have hpne : p.2.id ≠ ex.id := by
          intro he
          exact hex_notin_rest (he ▸ List.mem_map_of_mem _ hp)
        have hpi : i ≠ p.1 := by
          intro he
          exact hi_notin_rest (he ▸ List.mem_map_of_mem _ hp)
        rw [hmem2, hM]
        constructor
        · intro h
          rcases h with h | h
          · simp only [List.map_map, List.mem_map, Function.comp] at h
            obtain ⟨p', hp', hpid⟩ := h
            have hp'q := List.of_mem_filter hp'
            simp only [decide_eq_true_eq] at hp'q
            have : p' = p := by
              have hinj := List.inj_on_of_nodup_map hrest_nodup
              exact hinj (List.mem_of_mem_filter hp') hp hpid
            subst this
            exact Or.inl ⟨fun hPm => hp'q.2.1 (List.mem_cons_of_mem _ hPm), hp'q.2.2⟩
          · rcases List.mem_cons.mp h with h | h
            · exact absurd h hpne
            · exact Or.inr h
        · intro h
          rcases h with ⟨h1, h2⟩ | h
          · refine Or.inl ?_
            simp only [List.map_map, List.mem_map, Function.comp]
            refine ⟨p, List.mem_filter.mpr ⟨hp, ?_⟩, rfl⟩
            simp only [decide_eq_true_eq]
            refine ⟨hpi, ?_, h2⟩
            intro hm
            rcases List.mem_cons.mp hm with hm | hm
            · exact hpne hm
            · exact h1 hm
          · exact Or.inr (List.mem_cons_of_mem _ h)
      have hfilt_rem : rest'.filter
            (fun p => decide (p.2.id ∉ (collectSimilar t ex i all (ex.id :: P)).2)) =
          rest'.filter (fun p => decide (p.2.id ∉ P) &&
            !(decide (t ≤ calculateSimilarity ex.code p.2.code))) := by
        refine List.filter_congr (fun p hp => ?_)
        have hiff := hq_mem p hp
        rcases hsim : decide (t ≤ calculateSimilarity ex.code p.2.code) <;>
          rcases hPm : decide (p.2.id ∈ P) <;>
            simp only [decide_eq_true_eq, decide_eq_false_iff_not] at hsim hPm <;>
              simp [hiff, hsim, hPm]
      have hfilt_M : rest'.filter (fun p => decide (¬ i = p.1 ∧ p.2.id ∉ ex.id :: P ∧
            t ≤ calculateSimilarity ex.code p.2.code)) =
          rest'.filter (fun p => decide (p.2.id ∉ P) &&
            decide (t ≤ calculateSimilarity ex.code p.2.code)) := by
        refine List.filter_congr (fun p hp => ?_)
        have hpne : p.2.id ≠ ex.id := by
          intro he
          exact hex_notin_rest (he ▸ List.mem_map_of_mem _ hp)
        have hpi : i ≠ p.1 := by
          intro he
          exact hi_notin_rest (he ▸ List.mem_map_of_mem _ hp)
        rcases hsim : decide (t ≤ calculateSimilarity ex.code p.2.code) <;>
          rcases hPm : decide (p.2.id ∈ P) <;>
            simp only [decide_eq_true_eq, decide_eq_false_iff_not] at hsim hPm <;>
              simp [hpi, hpne, hsim, hPm]
      rw [List.filter_cons_of_pos (by simpa using hP')]
      rw [hM, hfilt_M]
      simp only [List.map_cons, List.cons_append]
      refine List.Perm.cons ex ?_
      have hIH' : (List.map (fun x => x.examples)
          (buildClusters t all rest' (collectSimilar t ex i all (ex.id :: P)).2 [])).flatten.Perm
          ((rest'.filter (fun p => decide (p.2.id ∉ P) &&
            !(decide (t ≤ calculateSimilarity ex.code p.2.code)))).map (·.2)) := by
        rw [← hfilt_rem]
        exact hIH
      refine (List.Perm.append (List.Perm.refl _) hIH').trans ?_
      rw [← List.map_append]
      exact List.Perm.map _ (filter_split_perm _ _ rest')

theorem enum_map_snd_id (examples : List CodeExample) :
    examples.enum.map (fun p => p.2.id) = examples.map (·.id) := by
  rw [show (fun p : Nat × CodeExample => p.2.id) =
    ((fun e : CodeExample => e.id) ∘ Prod.snd) from rfl, ← List.map_map,
    List.enum_map_snd]

/-- C3 counterexample: two distinct snippets that share the id `a`; the
second one is silently dropped — it is a member of no cluster at all, so the
clusters do not partition the input. -/
theorem findClusters_duplicate_id_counterexample :
    fixA ≠ fixADup ∧
    ((findClusters 0.85 [fixA, fixADup]).flatMap (·.examples)) = [fixA] := by
  constructor
  · decide
  · decide

/-- C3 (amended): when the snippet ids are pairwise distinct, the clusters
returned by `_find_clusters` partition the input — the concatenation of all
cluster member lists is a permutation of the input list (no snippet dropped,
none duplicated). -/
theorem findClusters_partition (t : ℚ) (examples : List CodeExample)
    (h : (examples.map (·.id)).Nodup) :
    List.Perm ((findClusters t examples).flatMap (·.examples)) examples := by
  have hids : (examples.enum.map (fun p => p.2.id)).Nodup := by
    rw [enum_map_snd_id]; exact h
  have hidx : (examples.enum.map Prod.fst).Nodup := by
    rw [List.enum_map_fst]; exact List.nodup_range _
  have hmain := buildClusters_flat_perm t examples.enum hids hidx examples.enum [] []
    (by simp) (by simp)
  have hfilt : examples.enum.filter (fun p => decide (p.2.id ∉ ([] : List String))) =
      examples.enum := List.filter_eq_self.mpr (fun p _ => by simp)
  rw [hfilt, List.enum_map_snd] at hmain
  rw [findClusters, List.flatMap_def]
  exact hmain

/-- Witness for C3 at two concrete snippets with distinct ids. -/
theorem findClusters_partition_witness :
    (([fixX, fixY].map (·.id)).Nodup) ∧
    List.Perm ((findClusters 0.85 [fixX, fixY]).flatMap (·.examples)) [fixX, fixY] :=
  ⟨by decide, findClusters_partition 0.85 [fixX, fixY] (by decide)⟩

theorem examples_mem_buildClusters (t : ℚ) (all rest : List (Nat × CodeExample))
    (P : List String) (acc : List DuplicateCluster) (c : DuplicateCluster)
    (hc : c ∈ acc) :
    c.examples ∈ (buildClusters t all rest P acc).map (·.examples) := by
  rw [buildClusters_map_examples_acc]
  exact List.mem_append_left _ (List.mem_map.mpr ⟨c, List.mem_reverse.mpr hc, rfl⟩)

theorem buildClusters_same_sim_pair (t : ℚ) (all : List (Nat × CodeExample))
    (a b : CodeExample)
    (hids : (all.map (fun p => p.2.id)).Nodup)
    (hidx : (all.map Prod.fst).Nodup)
    (hne : a.id ≠ b.id)
    (hsimab : t ≤ calculateSimilarity a.code b.code)
    (hsimba : t ≤ calculateSimilarity b.code a.code)
    (heq : ∀ z : List Char, calculateSimilarity z a.code = calculateSimilarity z b.code) :
    ∀ (rest pre : List (Nat × CodeExample)) (P : List String)
      (acc : List DuplicateCluster),
      all = pre ++ rest →
      (∀ p ∈ pre, p.2.id ∈ P) →
      (∃ ia, (ia, a) ∈ rest) → (∃ ib, (ib, b) ∈ rest) →
      a.id ∉ P → b.id ∉ P →
      ∃ ms ∈ (buildClusters t all rest P acc).map (·.examples), a ∈ ms ∧ b ∈ ms := by
  intro rest
  induction rest with
  | nil =>
    intro pre P acc _ _ hA _ _ _
    obtain ⟨ia, hia⟩ := hA
    simp at hia
  | cons hd rest' ih =>
    intro pre P acc happ hpre hA hB haP hbP
    obtain ⟨i, ex⟩ := hd
    obtain ⟨ia, hia⟩ := hA
    obtain ⟨ib, hib⟩ := hB
    have hids' : ((pre ++ (i, ex) :: rest').map (fun p => p.2.id)).Nodup := happ ▸ hids
    have hidx' : ((pre ++ (i, ex) :: rest').map Prod.fst).Nodup := happ ▸ hidx
    rw [List.map_append, List.map_cons] at hids' hidx'
    have hex_notin_rest : ex.id ∉ rest'.map (fun p => p.2.id) :=
      (List.nodup_cons.mp (List.nodup_append.mp hids').2.1).1
    have hi_notin_rest : i ∉ rest'.map Prod.fst :=
      (List.nodup_cons.mp (List.nodup_append.mp hidx').2.1).1
    rw [buildClusters]
    split
    · rename_i hexP
      have hia' : (ia, a) ∈ rest' := by
        rcases List.mem_cons.mp hia with h | h
        · exfalso
          have : a = ex := congrArg Prod.snd h
          exact haP (this ▸ hexP)
        · exact h
      have hib' : (ib, b) ∈ rest' := by
        rcases List.mem_cons.mp hib with h | h
        · exfalso
          have : b = ex := congrArg Prod.snd h
          exact hbP (this ▸ hexP)
        · exact h
      refine ih (pre ++ [(i, ex)]) P acc (by simpa using happ) ?_
        ⟨ia, hia'⟩ ⟨ib, hib'⟩ haP hbP
      intro p hp
      rcases List.mem_append.mp hp with h | h
      · exact hpre p h
      · simp only [List.mem_singleton] at h
        subst h
        exact hexP
    · rename_i hexP
      have hM := collectSimilar_over_all t ex i pre rest' (ex.id :: P)
        (fun p hp => List.mem_cons_of_mem _ (hpre p hp))
        (by rw [← happ]; exact hids)
      rw [← happ] at hM
      have hmem2 := collectSimilar_snd_mem t ex i all (ex.id :: P)
      by_cases hexa : ex.id = a.id
      · -- the seed is a itself: b is absorbed into the fresh cluster
        have hexa' : ex = a := by
          rcases List.mem_cons.mp hia with h | h
          · exact (congrArg Prod.snd h).symm
          · exfalso
            exact hex_notin_rest (hexa ▸ List.mem_map_of_mem (fun p => p.2.id) h)
        subst hexa'
        have hib' : (ib, b) ∈ rest' := by
          rcases List.mem_cons.mp hib with h | h
          · exact absurd (congrArg (fun p => p.2.id) h) (Ne.symm hne)
          · exact h
        have hbmem : b ∈ (collectSimilar t ex i all (ex.id :: P)).1 := by
          rw [hM]
          refine List.mem_map.mpr ⟨(ib, b), List.mem_filter.mpr ⟨hib', ?_⟩, rfl⟩
          simp only [decide_eq_true_eq]
          refine ⟨?_, ?_, hsimab⟩
          · intro hiib
            exact hi_notin_rest (hiib ▸ List.mem_map_of_mem Prod.fst hib')
          · intro hm
            rcases List.mem_cons.mp hm with hm | hm
            · exact hne hm.symm
            · exact hbP hm
        exact ⟨ex :: (collectSimilar t ex i all (ex.id :: P)).1,
          examples_mem_buildClusters t all rest'
            (collectSimilar t ex i all (ex.id :: P)).2 _
            ⟨("cluster_" ++ pad4 acc.length).data,
              ex :: (collectSimilar t ex i all (ex.id :: P)).1,
              clusterSimilarity (ex :: (collectSimilar t ex i all (ex.id :: P)).1),
              ex.id⟩ (List.mem_cons_self _ _),
          List.mem_cons_self _ _, List.mem_cons_of_mem _ hbmem⟩
      · by_cases hexb : ex.id = b.id
        · -- the seed is b itself: a is absorbed into the fresh cluster
          have hexb' : ex = b := by
            rcases List.mem_cons.mp hib with h | h
            · exact (congrArg Prod.snd h).symm
            · exfalso
              exact hex_notin_rest (hexb ▸ List.mem_map_of_mem (fun p => p.2.id) h)
          subst hexb'
          have hia' : (ia, a) ∈ rest' := by
            rcases List.mem_cons.mp hia with h | h
            · exact absurd (congrArg (fun p => p.2.id) h) hne
            · exact h
          have hamem : a ∈ (collectSimilar t ex i all (ex.id :: P)).1 := by
            rw [hM]
            refine List.mem_map.mpr ⟨(ia, a), List.mem_filter.mpr ⟨hia', ?_⟩, rfl⟩
            simp only [decide_eq_true_eq]
            refine ⟨?_, ?_, hsimba⟩
            · intro hiia
              exact hi_notin_rest (hiia ▸ List.mem_map_of_mem Prod.fst hia')
            · intro hm
              rcases List.mem_cons.mp hm with hm | hm
              · exact hne hm
              · exact haP hm
          exact ⟨ex :: (collectSimilar t ex i all (ex.id :: P)).1,
            examples_mem_buildClusters t all rest'
              (collectSimilar t ex i all (ex.id :: P)).2 _
              ⟨("cluster_" ++ pad4 acc.length).data,
                ex :: (collectSimilar t ex i all (ex.id :: P)).1,
                clusterSimilarity (ex :: (collectSimilar t ex i all (ex.id :: P)).1),
                ex.id⟩ (List.mem_cons_self _ _),
            List.mem_cons_of_mem _ hamem, List.mem_cons_self _ _⟩
        · -- a different seed: a and b are both absorbed, or both survive
          have hia' : (ia, a) ∈ rest' := by
            rcases List.mem_cons.mp hia with h | h
            · exact absurd (congrArg (fun p => p.2.id) h).symm hexa
            · exact h
          have hib' : (ib, b) ∈ rest' := by
            rcases List.mem_cons.mp hib with h | h
            · exact absurd (congrArg (fun p => p.2.id) h).symm hexb
            · exact h
          have hiia : ¬ i = ia := by
            intro hi
            exact hi_notin_rest (hi ▸ List.mem_map_of_mem Prod.fst hia')
          have hiib : ¬ i = ib := by
            intro hi
            exact hi_notin_rest (hi ▸ List.mem_map_of_mem Prod.fst hib')
          have haP1 : a.id ∉ ex.id :: P := by
            intro hm
            rcases List.mem_cons.mp hm with hm | hm
            · exact hexa hm.symm
            · exact haP hm
          have hbP1 : b.id ∉ ex.id :: P := by
            intro hm
            rcases List.mem_cons.mp hm with hm | hm
            · exact hexb hm.symm
            · exact hbP hm
          by_cases hsa : t ≤ calculateSimilarity ex.code a.code
          · -- both absorbed into the fresh cluster
            have hsb : t ≤ calculateSimilarity ex.code b.code := (heq ex.code) ▸ hsa
            have hamem : a ∈ (collectSimilar t ex i all (ex.id :: P)).1 := by
              rw [hM]
              exact List.mem_map.mpr ⟨(ia, a), List.mem_filter.mpr ⟨hia',
                by simp only [decide_eq_true_eq]; exact ⟨hiia, haP1, hsa⟩⟩, rfl⟩
            have hbmem : b ∈ (collectSimilar t ex i all (ex.id :: P)).1 := by
              rw [hM]
              exact List.mem_map.mpr ⟨(ib, b), List.mem_filter.mpr ⟨hib',
                by simp only [decide_eq_true_eq]; exact ⟨hiib, hbP1, hsb⟩⟩, rfl⟩
            exact ⟨ex :: (collectSimilar t ex i all (ex.id :: P)).1,
              examples_mem_buildClusters t all rest'
                (collectSimilar t ex i all (ex.id :: P)).2 _
                ⟨("cluster_" ++ pad4 acc.length).data,
                  ex :: (collectSimilar t ex i all (ex.id :: P)).1,
                  clusterSimilarity (ex :: (collectSimilar t ex i all (ex.id :: P)).1),
                  ex.id⟩ (List.mem_cons_self _ _),
              List.mem_cons_of_mem _ hamem, List.mem_cons_of_mem _ hbmem⟩
          · -- neither is absorbed: recurse on the remaining suffix
            have hsb : ¬ t ≤ calculateSimilarity ex.code b.code := (heq ex.code) ▸ hsa
            have hrest_nodup : (rest'.map (fun p => p.2.id)).Nodup :=
              (List.nodup_cons.mp (List.nodup_append.mp hids').2.1).2
            have hnotin : ∀ (c : CodeExample) (ic : Nat), (ic, c) ∈ rest' →
                ¬ t ≤ calculateSimilarity ex.code c.code →
                c.id ∉ ex.id :: P →
                c.id ∉ (collectSimilar t ex i all (ex.id :: P)).2 := by
              intro c ic hic hsc hcP1 hmem
              rcases (hmem2 c.id).mp hmem with h | h
              · rw [hM] at h
                simp only [List.map_map, List.mem_map, Function.comp] at h
                obtain ⟨p', hp', hpid⟩ := h
                have hp'q := List.of_mem_filter hp'
                simp only [decide_eq_true_eq] at hp'q
                have hpe : p' = (ic, c) := by
                  have hinj := List.inj_on_of_nodup_map hrest_nodup
                  exact hinj (List.mem_of_mem_filter hp') hic hpid
                rw [hpe] at hp'q
                exact hsc hp'q.2.2
              · exact hcP1 h
            refine ih (pre ++ [(i, ex)]) (collectSimilar t ex i all (ex.id :: P)).2 _
              (by simpa using happ) ?_ ⟨ia, hia'⟩ ⟨ib, hib'⟩
              (hnotin a ia hia' hsa haP1) (hnotin b ib hib' hsb hbP1)
            intro p hp
            rcases List.mem_append.mp hp with h | h
            · exact (hmem2 _).mpr (Or.inr (List.mem_cons_of_mem _ (hpre p h)))
            · simp only [List.mem_singleton] at h
              subst h
              exact (hmem2 _).mpr (Or.inr (List.mem_cons_self _ _))

theorem exists_enum_of_mem {a : CodeExample} {l : List CodeExample} (h : a ∈ l) :
    ∃ i, (i, a) ∈ l.enum := by
  rw [← List.enum_map_snd l] at h
  obtain ⟨p, hp, hpa⟩ := List.mem_map.mp h
  exact ⟨p.1, by rw [show (p.1, a) = p from by rw [← hpa]]; exact hp⟩

/-- C4 counterexample: the snippets `#a` and `#b` have identical (empty)
normalized text, yet at the default threshold 0.85 they land in two distinct
singleton clusters — their similarity is only 0.8, because `token_set_ratio`
scores the empty token sets 0. -/
theorem findClusters_same_norm_split_counterexample :
    normalizeCode fixCmtA.code = normalizeCode fixCmtB.code ∧
    fixCmtA ≠ fixCmtB ∧
    (findClusters 0.85 [fixCmtA, fixCmtB]).map (·.examples) = [[fixCmtA], [fixCmtB]] := by
  refine ⟨by decide, by decide, ?_⟩
  have hsim : calculateSimilarity fixCmtA.code fixCmtB.code = 0.8 := by
    have h1 : normalizeCode fixCmtA.code = [] := by decide
    have h2 : normalizeCode fixCmtB.code = [] := by decide
    simp only [calculateSimilarity, h1, h2]
    rw [show indelSim [] [] = 1 from rfl, show tokenSortSim [] [] = 1 from rfl,
      show tokenSetSim [] [] = 0 from rfl]
    norm_num [wSeq, wSort, wSet]
  have henum : List.enum [fixCmtA, fixCmtB] = [(0, fixCmtA), (1, fixCmtB)] := by decide
  have hcoll1 : collectSimilar 0.85 fixCmtA 0 [(0, fixCmtA), (1, fixCmtB)]
      (fixCmtA.id :: []) = ([], [fixCmtA.id]) := by
    rw [collectSimilar, if_pos (Or.inl rfl), collectSimilar, if_neg (by decide),
      if_neg (by rw [hsim]; norm_num), collectSimilar]
  rw [findClusters, henum, buildClusters, if_neg (by decide), hcoll1]
  rw [buildClusters, if_neg (by decide)]
  rw [show collectSimilar 0.85 fixCmtB 1 [(0, fixCmtA), (1, fixCmtB)]
    (fixCmtB.id :: [fixCmtA.id]) = ([], [fixCmtB.id, fixCmtA.id]) from by decide]
  rw [buildClusters]
  decide

/-- C4 (amended): if the snippet ids are pairwise distinct, the threshold is
at most 1, and two distinct snippets have identical and *non-empty* normalized
text, then `_find_clusters` places both in the same cluster.  (For empty
normalized text the similarity is 0.8, so thresholds above 0.8 split the
pair; thresholds above 1 split every pair.) -/
theorem findClusters_same_normalization (t : ℚ) (examples : List CodeExample)
    (a b : CodeExample)
    (hids : (examples.map (·.id)).Nodup)
    (ht : t ≤ 1)
    (ha : a ∈ examples) (hb : b ∈ examples) (hab : a ≠ b)
    (hnorm : normalizeCode a.code = normalizeCode b.code)
    (hnn : normalizeCode a.code ≠ []) :
    ∃ ms ∈ (findClusters t examples).map (·.examples), a ∈ ms ∧ b ∈ ms := by
  have hne : a.id ≠ b.id := by
    intro h
    exact hab (List.inj_on_of_nodup_map hids ha hb h)
  have hab1 : calculateSimilarity a.code b.code = 1 := by
    have hstep : calculateSimilarity a.code b.code = calculateSimilarity a.code a.code := by
      simp only [calculateSimilarity]
      rw [hnorm]
    rw [hstep]
    exact calculateSimilarity_self hnn
  have hsimab : t ≤ calculateSimilarity a.code b.code := hab1 ▸ ht
  have hsimba : t ≤ calculateSimilarity b.code a.code := by
    rw [calculateSimilarity_comm b.code a.code]
    exact hsimab
  have heq : ∀ z : List Char, calculateSimilarity z a.code = calculateSimilarity z b.code := by
    intro z
    simp only [calculateSimilarity]
    rw [hnorm]
  have hidsE : (examples.enum.map (fun p => p.2.id)).Nodup := by
    rw [enum_map_snd_id]; exact hids
  have hidxE : (examples.enum.map Prod.fst).Nodup := by
    rw [List.enum_map_fst]; exact List.nodup_range _
  obtain ⟨ia, hia⟩ := exists_enum_of_mem ha
  obtain ⟨ib, hib⟩ := exists_enum_of_mem hb
  rw [findClusters]
  exact buildClusters_same_sim_pair t examples.enum a b hidsE hidxE hne hsimab hsimba
    heq examples.enum [] [] [] (by simp) (by simp) ⟨ia, hia⟩ ⟨ib, hib⟩
    (by simp) (by simp)

/-- Witness for C4: `IB.connect(1)` and `ib.connect(1)  # retry` normalize
identically (non-empty), have distinct ids, and end up in the same cluster at
threshold 0.85. -/
theorem findClusters_same_normalization_witness :
    normalizeCode fixX.code = normalizeCode fixY.code ∧
    ∃ ms ∈ (findClusters 0.85 [fixX, fixY]).map (·.examples), fixX ∈ ms ∧ fixY ∈ ms :=
  ⟨by decide,
   findClusters_same_normalization 0.85 [fixX, fixY] fixX fixY (by decide)
     (by norm_num) (by decide) (by decide) (by decide) (by decide) (by decide)⟩

/-! ### Merge Coordinator lemmas (claims C1, C8, C10) -/

theorem string_append_ne_empty {s : String} (t : String) (h : s.data ≠ []) :
    s ++ t ≠ "" := by
  intro he
  apply h
  have := congrArg String.data he
  rw [String.data_append] at this
  exact (List.append_eq_nil.mp this).1

theorem string_append_append_ne_empty {s : String} (t u : String)
    (h : s.data ≠ []) : s ++ t ++ u ≠ "" := by
  intro he
  apply h
  have := congrArg String.data he
  rw [String.data_append, String.data_append] at this
  exact (List.append_eq_nil.mp (List.append_eq_nil.mp this).1).1

/-- C1: for every cluster with at least two members, if the collaborator call
raises (any transport/protocol error) or returns text that does not parse as
JSON, `merge_examples` does not raise: it returns a record whose code is the
first member's code, whose confidence is at most 0.6 (0.5 on the
transport-error path, 0.6 on the parse-failure path), and whose notes are
non-empty and embed the failure reason. -/
theorem mergeExamples_fallback (parse : List Char → Option JVal) (model : String)
    (apiResult : Except String (List Char)) (ex0 ex1 : CodeExample)
    (rest : List CodeExample) (clusterId : String)
    (hfail : (∃ e, apiResult = Except.error e) ∨
      (∃ resp, apiResult = Except.ok resp ∧ parse (extractFenced resp) = none)) :
    ∃ m, mergeExamples parse model apiResult (ex0 :: ex1 :: rest) clusterId =
        Except.ok m ∧
      m.code = ex0.code ∧
      (∃ q, mergedConfidence m = some q ∧ q ≤ 0.6) ∧
      m.notes ≠ "" ∧
      ((∃ e, apiResult = Except.error e ∧
          m.notes = "AI merge failed, using first example. Error: " ++ e) ∨
       (∃ resp, apiResult = Except.ok resp ∧
          m.notes = "JSON parse failed. Raw response: " ++
            String.mk (resp.take 100) ++ "...")) := by
  rcases hfail with ⟨e, he⟩ | ⟨resp, hresp, hparse⟩
  · subst he
    refine ⟨mergeFallback (ex0 :: ex1 :: rest) clusterId e ex0, rfl, rfl, ⟨0.5, rfl, by norm_num⟩,
      ?_, Or.inl ⟨e, rfl, rfl⟩⟩
    exact string_append_ne_empty _ (by decide)
  · subst hresp
    rw [mergeExamples, parseMergeResponse, hparse]
    refine ⟨_, rfl, rfl, ⟨0.6, rfl, by norm_num⟩, ?_, Or.inr ⟨resp, rfl, rfl⟩⟩
    exact string_append_append_ne_empty _ _ (by decide)

/-- Witness for C1 at a concrete 2-member cluster and a failing collaborator. -/
theorem mergeExamples_fallback_witness :
    ∃ m, mergeExamples (fun _ => none) "m" (Except.error "boom") [fixM1, fixM2] "c1" =
        Except.ok m ∧
      m.code = fixM1.code ∧ (∃ q, mergedConfidence m = some q ∧ q ≤ 0.6) := by
  obtain ⟨m, h1, h2, h3, _, _⟩ := mergeExamples_fallback (fun _ => none) "m"
    (Except.error "boom") fixM1 fixM2 [] "c1" (Or.inl ⟨"boom", rfl⟩)
  exact ⟨m, h1, h2, h3⟩

/-- C10: `merge_examples` raises (a `ValueError`) exactly when called with an
empty list; for every non-empty list it returns a record.  The single-member
case returns the member's own code with confidence 1.0 and is independent of
the collaborator (no API call is made). -/
theorem mergeExamples_total (parse : List Char → Option JVal) (model : String)
    (apiResult : Except String (List Char)) (examples : List CodeExample)
    (clusterId : String) :
    ((∃ e, mergeExamples parse model apiResult examples clusterId = Except.error e) ↔
      examples = []) ∧
    (examples ≠ [] →
      ∃ m, mergeExamples parse model apiResult examples clusterId = Except.ok m) ∧
    (∀ ex, examples = [ex] →
      mergeExamples parse model apiResult examples clusterId =
        Except.ok { id := "merged_" ++ ex.id
                    code := ex.code
                    language := ex.language
                    description := pyOrStr ex.context "Code example"
                    sources := [ex.id]
                    tags := ex.tags
                    notes := "Single example, no duplicates found"
                    metadata := [("confidence", JVal.jnum 1.0),
                                 ("variations", JVal.jnum 0)] } ∧
      ∀ api2, mergeExamples parse model api2 examples clusterId =
        mergeExamples parse model apiResult examples clusterId) := by
  match examples with
  | [] =>
    refine ⟨⟨fun _ => rfl, fun _ => ⟨_, rfl⟩⟩, fun h => absurd rfl h, fun ex hx => by simp at hx⟩
  | [ex] =>
    refine ⟨⟨?_, fun h => by simp at h⟩, fun _ => ⟨_, rfl⟩, fun ex' hx => ?_⟩
    · rintro ⟨e, he⟩
      have hok : (mergeExamples parse model apiResult [ex] clusterId).isOk = true := rfl
      rw [he] at hok
      simp [Except.isOk, Except.toBool] at hok
    · obtain rfl : ex' = ex := by
        injection hx with h1 _
        exact h1.symm
      exact ⟨rfl, fun api2 => rfl⟩
  | ex0 :: ex1 :: rest =>
    have hok : ∃ m, mergeExamples parse model apiResult (ex0 :: ex1 :: rest) clusterId =
        Except.ok m := by
      rcases apiResult with e | resp
      · exact ⟨_, rfl⟩
      · rcases hpm : parseMergeResponse parse model resp (ex0 :: ex1 :: rest) clusterId
          with e' | m
        · rw [mergeExamples, hpm]
          exact ⟨_, rfl⟩
        · rw [mergeExamples, hpm]
          exact ⟨m, rfl⟩
    obtain ⟨m, hm⟩ := hok
    refine ⟨⟨?_, fun h => by simp at h⟩, fun _ => ⟨m, hm⟩, fun ex' hx => by simp at hx⟩
    rintro ⟨e, he⟩
    rw [hm] at he
    exact absurd he (by simp)

/-- Witness for C10: the empty-input case raises and a singleton returns the
member's own record. -/
theorem mergeExamples_total_witness :
    (∃ e, mergeExamples (fun _ => none) "m" (Except.error "x") ([] : List CodeExample)
      "c" = Except.error e) ∧
    ∃ m, mergeExamples (fun _ => none) "m" (Except.error "x") [fixM1] "c" =
      Except.ok m :=
  ⟨(mergeExamples_total (fun _ => none) "m" (Except.error "x") [] "c").1.mpr rfl,
   (mergeExamples_total (fun _ => none) "m" (Except.error "x") [fixM1] "c").2.1
     (by simp)⟩

theorem mergedConfidence_of_metadata (m : MergedExample) (v : JVal)
    (tail : List (String × JVal))
    (hmeta : m.metadata = ("confidence", v) :: tail) :
    mergedConfidence m = jnumValue v := by
  have h1 : jLookup m.metadata "confidence" = some v := by
    rw [jLookup, hmeta, List.find?_cons_of_pos _ (by simp)]
    rfl
  rw [mergedConfidence, h1]
  cases v <;> rfl

/-- C8 counterexample: a response parsing to the JSON object
`{"confidence": 5}` — which has none of the six contract fields and an
out-of-range confidence — is accepted on the success path (the notes are the
empty default, not the parse-failure fallback) and its confidence 5 violates
the `[0,1]` range. -/
theorem mergeExamples_unvalidated_confidence_counterexample :
    exceptConfidence (mergeExamples
        (fun s => if s = "RESP".data
          then some (JVal.jobj [("confidence", JVal.jnum 5)]) else none)
        "m" (Except.ok "RESP".data) [fixM1, fixM2] "c8") = some 5 ∧
    ¬((0 : ℚ) ≤ 5 ∧ (5 : ℚ) ≤ 1) ∧
    exceptNotes (mergeExamples
        (fun s => if s = "RESP".data
          then some (JVal.jobj [("confidence", JVal.jnum 5)]) else none)
        "m" (Except.ok "RESP".data) [fixM1, fixM2] "c8") = some "" := by
  refine ⟨by decide, by norm_num, by decide⟩

theorem parseMergeResponse_ok_characterization (parse : List Char → Option JVal)
    (model : String) (resp : List Char) (examples : List CodeExample)
    (clusterId : String) (m : MergedExample)
    (h : parseMergeResponse parse model resp examples clusterId = Except.ok m) :
    m.sources = examples.map (·.id) ∧
    ∀ q, mergedConfidence m = some q →
      q = 0.6 ∨ q = 0.8 ∨
      (∃ fields, parse (extractFenced resp) = some (JVal.jobj fields) ∧
        jLookup fields "confidence" = some (JVal.jnum q)) := by
  match examples with
  | [] =>
    rw [show parseMergeResponse parse model resp [] clusterId =
      Except.error "IndexError: examples is empty" from rfl] at h
    exact absurd h (by simp)
  | ex0 :: restEx =>
    rw [parseMergeResponse] at h
    split at h
    all_goals try (exact Except.noConfusion h)
    · injection h with h'
      subst h'
      refine ⟨rfl, fun q hq => ?_⟩
      rw [mergedConfidence_of_metadata _ (JVal.jnum 0.6) _ rfl] at hq
      simp only [jnumValue, Option.some.injEq] at hq
      exact Or.inl hq.symm
    · rename_i fields heq
      split at h
      all_goals try (exact Except.noConfusion h)
      split at h
      all_goals try (exact Except.noConfusion h)
      split at h
      all_goals try (exact Except.noConfusion h)
      split at h
      all_goals try (exact Except.noConfusion h)
      split at h
      all_goals try (exact Except.noConfusion h)
      injection h with h'
      subst h'
      refine ⟨rfl, fun q hq => ?_⟩
      rw [mergedConfidence_of_metadata _
        ((jLookup fields "confidence").getD (JVal.jnum 0.8)) _ rfl] at hq
      rcases hcf : jLookup fields "confidence" with _ | jv2
      · rw [hcf] at hq
        simp only [Option.getD_none, jnumValue, Option.some.injEq] at hq
        exact Or.inr (Or.inl hq.symm)
      · rw [hcf] at hq
        rcases jv2 with _ | _ | q' | _ | _ | _ <;> simp [jnumValue] at hq
        exact Or.inr (Or.inr ⟨fields, heq, by rw [hcf, hq]⟩)

/-- C8 (amended): every record returned by `merge_examples` has `sources`
equal to exactly the ids of the cluster's members in cluster order; its
confidence is one of the fixed values 0.5, 0.6, 0.8 or 1.0 — all in `[0,1]` —
unless it was copied, unvalidated, from the `confidence` field of the parsed
response.  A response that does not parse as JSON is treated as a parse
failure, but a parsed JSON object with missing or extra fields is accepted,
missing fields being filled with defaults. -/
theorem mergeExamples_record_invariants (parse : List Char → Option JVal)
    (model : String) (apiResult : Except String (List Char))
    (examples : List CodeExample) (clusterId : String) (m : MergedExample)
    (h : mergeExamples parse model apiResult examples clusterId = Except.ok m) :
    m.sources = examples.map (·.id) ∧
    ∀ q, mergedConfidence m = some q →
      (0 ≤ q ∧ q ≤ 1) ∨
      (∃ resp fields, apiResult = Except.ok resp ∧
        parse (extractFenced resp) = some (JVal.jobj fields) ∧
        jLookup fields "confidence" = some (JVal.jnum q)) := by
  match examples with
  | [] =>
    rw [show mergeExamples parse model apiResult [] clusterId =
      Except.error "ValueError: No examples to merge" from rfl] at h
    exact absurd h (by simp)
  | [ex] =>
    rw [show mergeExamples parse model apiResult [ex] clusterId =
      Except.ok { id := "merged_" ++ ex.id
                  code := ex.code
                  language := ex.language
                  description := pyOrStr ex.context "Code example"
                  sources := [ex.id]
                  tags := ex.tags
                  notes := "Single example, no duplicates found"
                  metadata := [("confidence", JVal.jnum 1.0),
                               ("variations", JVal.jnum 0)] } from rfl] at h
    injection h with h'
    subst h'
    refine ⟨rfl, fun q hq => ?_⟩
    rw [mergedConfidence_of_metadata _ (JVal.jnum 1.0) _ rfl] at hq
    simp only [jnumValue, Option.some.injEq] at hq
    exact Or.inl (by rw [← hq]; norm_num)
  | ex0 :: ex1 :: rest =>
    rcases apiResult with e | resp
    · rw [show mergeExamples parse model (Except.error e) (ex0 :: ex1 :: rest) clusterId =
        Except.ok (mergeFallback (ex0 :: ex1 :: rest) clusterId e ex0) from rfl] at h
      injection h with h'
      subst h'
      refine ⟨rfl, fun q hq => ?_⟩
      rw [mergedConfidence_of_metadata _ (JVal.jnum 0.5) _ rfl] at hq
      simp only [jnumValue, Option.some.injEq] at hq
      exact Or.inl (by rw [← hq]; norm_num)
    · rw [mergeExamples] at h
      split at h
      · rename_i m' hpm
        injection h with h'
        subst h'
        obtain ⟨hs, hconf⟩ := parseMergeResponse_ok_characterization parse model resp
          (ex0 :: ex1 :: rest) clusterId m' hpm
        refine ⟨hs, fun q hq => ?_⟩
        rcases hconf q hq with h6 | h8 | ⟨fields, hpf, hlf⟩
        · exact Or.inl (by rw [h6]; norm_num)
        · exact Or.inl (by rw [h8]; norm_num)
        · exact Or.inr ⟨resp, fields, rfl, hpf, hlf⟩
      · injection h with h'
        subst h'
        refine ⟨rfl, fun q hq => ?_⟩
        rw [mergedConfidence_of_metadata _ (JVal.jnum 0.5) _ rfl] at hq
        simp only [jnumValue, Option.some.injEq] at hq
        exact Or.inl (by rw [← hq]; norm_num)

/-- Witness for C8 at a concrete fallback call: the sources are the member
ids in order and the confidence is in range. -/
theorem mergeExamples_record_invariants_witness :
    mergeExamples (fun _ => none) "m" (Except.error "boom") [fixM1, fixM2] "c8w" =
      Except.ok (mergeFallback [fixM1, fixM2] "c8w" "boom" fixM1) ∧
    (mergeFallback [fixM1, fixM2] "c8w" "boom" fixM1).sources =
      [fixM1, fixM2].map (·.id) :=
  ⟨rfl, (mergeExamples_record_invariants (fun _ => none) "m" (Except.error "boom")
      [fixM1, fixM2] "c8w" (mergeFallback [fixM1, fixM2] "c8w" "boom" fixM1) rfl).1⟩

/-- C2 counterexample: tier classification is not a function of the occurrence
count across the two classifiers the spec covers.  `_determine_tier` keys on
the source count and the merge confidence: a record backed by 5 sources —
which the claimed table sends to the canonical tier — is classified `a2`
because its merge confidence 0.5 is below 0.9. -/
theorem determineTier_occurrence_counterexample :
    fixBexConf.sources.length = 5 ∧
    determineTier fixBexConf = "a2".data ∧
    specTierTable fixBexConf.sources.length = ("a0".data, 1) ∧
    determineTier fixBexConf ≠ (specTierTable fixBexConf.sources.length).1 := by
  have hconf : getConfidence fixBexConf = 0.5 := rfl
  have h1 : ¬(2 ≤ fixBexConf.sources.length ∧ (0.9 : ℚ) ≤ getConfidence fixBexConf) := by
    rintro ⟨-, hc⟩
    rw [hconf] at hc
    norm_num at hc
  have h2 : 1 ≤ fixBexConf.sources.length ∨ (0.7 : ℚ) ≤ getConfidence fixBexConf :=
    Or.inl (by decide)
  have hd : determineTier fixBexConf = "a2".data := by
    rw [determineTier, if_neg h1, if_pos h2]
  refine ⟨rfl, hd, by decide, ?_⟩
  rw [hd]
  decide

/-- C2 (amended): the occurrence-count classifier of `cluster_examples` is a
total deterministic function of the occurrence count and agrees with the spec
table on every count n ≥ 1 (5 or more → `a0`/1.00, 3–4 → `a1`/0.95,
2 → `a2`/0.87, 1 → `a3`/0.75); the other classifier named by the claim,
`ThreeLayerBuilder._determine_tier`, keys on source count and merge
confidence instead of the occurrence count. -/
theorem tierByOccurrence_matches_table (n : Nat) (h : 1 ≤ n) :
    tierByOccurrence n = specTierTable n := by
  unfold tierByOccurrence specTierTable
  by_cases h5 : 5 ≤ n
  · rw [if_pos h5, if_pos h5]
  · rw [if_neg h5, if_neg h5]
    by_cases h3 : 3 ≤ n
    · rw [if_pos h3, if_pos ⟨h3, by omega⟩]
    · rw [if_neg h3]
      by_cases h2 : 2 ≤ n
      · rw [if_pos h2, if_neg (fun hh : 3 ≤ n ∧ n ≤ 4 => h3 hh.1),
          if_pos (show n = 2 by omega)]
      · rw [if_neg h2, if_neg (fun hh : 3 ≤ n ∧ n ≤ 4 => h3 hh.1),
          if_neg (show ¬n = 2 by omega)]

/-- Witness for C2 at occurrence count 2: both sides give `a2` with 0.87. -/
theorem tierByOccurrence_matches_table_witness :
    1 ≤ 2 ∧ tierByOccurrence 2 = specTierTable 2 :=
  ⟨by decide, tierByOccurrence_matches_table 2 (by decide)⟩

/-- C5: the tag-compression rules depend on the iteration order of the Python
set of distinct tags, which is not fixed across runs.  The same two merged
records, under the two enumeration orders of the same tag set
{paper, papers}, assign the short tokens `ppr` and `pape` to different
tags, so the rebuilt tag index is not byte-identical across runs. -/
theorem compressionRules_order_dependent :
    List.Perm ["paper".data, "papers".data] ["papers".data, "paper".data] ∧
    (compressionRules [fixBexPaper, fixBexPapers]
        ["paper".data, "papers".data]).1 ≠
      (compressionRules [fixBexPaper, fixBexPapers]
        ["papers".data, "paper".data]).1 :=
  ⟨List.Perm.swap "papers".data "paper".data [], by decide⟩

/-- Filtering by key steps through a cons. -/
theorem filterKey_cons (cnt : List Char → Nat) (k : Nat) (y : List Char)
    (l : List (List Char)) :
    (y :: l).filter (fun z => cnt z == k) =
      if cnt y = k then y :: l.filter (fun z => cnt z == k)
      else l.filter (fun z => cnt z == k) := by
  simp only [List.filter_cons, beq_iff_eq]

/-- Inserting into the popularity order is a permutation of consing. -/
theorem insertStableDesc_perm (cnt : List Char → Nat) (x : List Char)
    (l : List (List Char)) : List.Perm (insertStableDesc cnt x l) (x :: l) := by
  induction l with
  | nil => exact List.Perm.refl _
  | cons y ys ih =>
    rw [insertStableDesc]
    by_cases hc : cnt y < cnt x
    · rw [if_pos hc]
    · rw [if_neg hc]
      exact (ih.cons y).trans (List.Perm.swap x y ys)

/-- Insertion keeps the list sorted descending by the key. -/
theorem insertStableDesc_sorted (cnt : List Char → Nat) (x : List Char)
    (l : List (List Char)) (h : l.Sorted (fun a b => cnt b ≤ cnt a)) :
    (insertStableDesc cnt x l).Sorted (fun a b => cnt b ≤ cnt a) := by
  induction l with
  | nil => exact List.sorted_singleton x
  | cons y ys ih =>
    rcases List.pairwise_cons.mp h with ⟨hy, hys⟩
    rw [insertStableDesc]
    by_cases hc : cnt y < cnt x
    · rw [if_pos hc]
      refine List.pairwise_cons.mpr ⟨?_, h⟩
      intro z hz
      rcases List.mem_cons.mp hz with rfl | hz'
      · exact Nat.le_of_lt hc
      · exact Nat.le_trans (hy z hz') (Nat.le_of_lt hc)
    · rw [if_neg hc]
      refine List.pairwise_cons.mpr ⟨?_, ih hys⟩
      intro z hz
      rcases List.mem_cons.mp ((insertStableDesc_perm cnt x ys).mem_iff.mp hz)
        with rfl | hz'
      · exact Nat.not_lt.mp hc
      · exact hy z hz'

/-- Stability of the insertion: in a descending-sorted list, the inserted
element lands after every element with the same key. -/
theorem insertStableDesc_filter (cnt : List Char → Nat) (k : Nat) (x : List Char)
    (l : List (List Char)) (hl : l.Sorted (fun a b => cnt b ≤ cnt a)) :
    (insertStableDesc cnt x l).filter (fun z => cnt z == k) =
      if cnt x = k then l.filter (fun z => cnt z == k) ++ [x]
      else l.filter (fun z => cnt z == k) := by
  induction l with
  | nil =>
    rw [show insertStableDesc cnt x [] = [x] from rfl, filterKey_cons]
    by_cases hk : cnt x = k
    · rw [if_pos hk, if_pos hk]
      rfl
    · rw [if_neg hk, if_neg hk]
  | cons y ys ih =>
    rcases List.pairwise_cons.mp hl with ⟨hy, hys⟩
    rw [insertStableDesc]
    by_cases hc : cnt y < cnt x
    · rw [if_pos hc, filterKey_cons]
      by_cases hk : cnt x = k
      · rw [if_pos hk, if_pos hk]
        have hnil : (y :: ys).filter (fun z => cnt z == k) = [] := by
          rw [List.filter_eq_nil_iff]
          intro z hz
          have hzle : cnt z ≤ cnt y := by
            rcases List.mem_cons.mp hz with rfl | hz'
            · exact Nat.le_refl _
            · exact hy z hz'
          simp only [beq_iff_eq]
          omega
        rw [hnil]
        rfl
      · rw [if_neg hk, if_neg hk]
    · rw [if_neg hc, filterKey_cons, filterKey_cons, ih hys]
      by_cases hyk : cnt y = k <;> by_cases hk : cnt x = k <;>
        simp [hyk, hk]

/-- Folding stable insertions over a list: the result is a permutation of the
input after the accumulator, it is sorted descending by the key, and elements
of each fixed key keep their input order. -/
theorem sortDesc_foldl_spec (cnt : List Char → Nat) (l : List (List Char)) :
    ∀ acc : List (List Char), acc.Sorted (fun a b => cnt b ≤ cnt a) →
      List.Perm (l.foldl (fun acc x => insertStableDesc cnt x acc) acc) (acc ++ l) ∧
      (l.foldl (fun acc x => insertStableDesc cnt x acc) acc).Sorted
        (fun a b => cnt b ≤ cnt a) ∧
      ∀ k, (l.foldl (fun acc x => insertStableDesc cnt x acc) acc).filter
          (fun z => cnt z == k) =
        acc.filter (fun z => cnt z == k) ++ l.filter (fun z => cnt z == k) := by
  induction l with
  | nil => exact fun acc hacc => ⟨by simp, hacc, fun k => by simp⟩
  | cons x xs ih =>
    intro acc hacc
    obtain ⟨hp, hs, hf⟩ :=
      ih (insertStableDesc cnt x acc) (insertStableDesc_sorted cnt x acc hacc)
    refine ⟨?_, hs, ?_⟩
    · simp only [List.foldl_cons]
      exact hp.trans (((insertStableDesc_perm cnt x acc).append_right xs).trans
        List.perm_middle.symm)
    · intro k
      simp only [List.foldl_cons]
      rw [hf k, insertStableDesc_filter cnt k x acc hacc, filterKey_cons]
      by_cases hk : cnt x = k
      · rw [if_pos hk, if_pos hk]
        simp
      · rw [if_neg hk, if_neg hk]

/-- The stable descending sort: permutation of the input, sorted descending,
and within each key the input order is kept. -/
theorem sortByCountDesc_spec (cnt : List Char → Nat) (l : List (List Char)) :
    List.Perm (sortByCountDesc cnt l) l ∧
    (sortByCountDesc cnt l).Sorted (fun a b => cnt b ≤ cnt a) ∧
    ∀ k, (sortByCountDesc cnt l).filter (fun z => cnt z == k) =
      l.filter (fun z => cnt z == k) := by
  obtain ⟨hp, hs, hf⟩ := sortDesc_foldl_spec cnt l [] List.sorted_nil
  unfold sortByCountDesc
  exact ⟨by simpa using hp, hs, fun k => by simpa using hf k⟩

/-- Every entry appended to a first-letter bucket carries that letter. -/
theorem addToBucket_invariant (L : Char) (e : List Char) :
    ∀ acc : List (Char × List (List Char)),
      (∀ p ∈ acc, ∀ x ∈ p.2, bucketKey x = some p.1) →
      bucketKey e = some L →
      ∀ p ∈ addToBucket L e acc, ∀ x ∈ p.2, bucketKey x = some p.1 := by
  intro acc
  induction acc with
  | nil =>
    intro _ he p hp x hx
    rw [show addToBucket L e [] = [(L, [e])] from rfl] at hp
    rcases List.mem_singleton.mp hp with rfl
    rcases List.mem_singleton.mp hx with rfl
    exact he
  | cons q rest ih =>
    obtain ⟨L', xs⟩ := q
    intro hacc he p hp x hx
    rw [addToBucket] at hp
    by_cases hL : L' = L
    · rw [if_pos hL] at hp
      rcases List.mem_cons.mp hp with rfl | hp'
      · rcases List.mem_append.mp hx with hx' | hx'
        · exact hacc (L', xs) (List.mem_cons_self _ _) x hx'
        · rcases List.mem_singleton.mp hx' with rfl
          rw [he, hL]
      · exact hacc p (List.mem_cons_of_mem _ hp') x hx
    · rw [if_neg hL] at hp
      rcases List.mem_cons.mp hp with rfl | hp'
      · exact hacc (L', xs) (List.mem_cons_self _ _) x hx
      · exact ih (fun r hr => hacc r (List.mem_cons_of_mem _ hr)) he p hp' x hx

/-- Every raw first-letter bucket contains only entries of its letter. -/
theorem apexAlphaRaw_invariant (entries : List (List Char)) :
    ∀ p ∈ apexAlphaRaw entries, ∀ x ∈ p.2, bucketKey x = some p.1 := by
  suffices h : ∀ (l : List (List Char)) (acc : List (Char × List (List Char))),
      (∀ p ∈ acc, ∀ x ∈ p.2, bucketKey x = some p.1) →
      ∀ p ∈ l.foldl
          (fun acc e =>
            match bucketKey e with
            | some L => addToBucket L e acc
            | none => acc)
          acc,
        ∀ x ∈ p.2, bucketKey x = some p.1 by
    exact h entries [] (fun p hp => absurd hp (List.not_mem_nil p))
  intro l
  induction l with
  | nil => exact fun acc hacc => hacc
  | cons e es ih =>
    intro acc hacc
    simp only [List.foldl_cons]
    refine ih _ ?_
    rcases hk : bucketKey e with _ | L
    · exact hacc
    · exact addToBucket_invariant L e acc hacc hk

/-- Lexicographic characterization of the tuple order. -/
theorem tupleLt_iff (a b : Nat × List Char × List Char) :
    tupleLt a b = true ↔
      a.1 < b.1 ∨ (a.1 = b.1 ∧
        (a.2.1 < b.2.1 ∨ (a.2.1 = b.2.1 ∧ a.2.2 < b.2.2))) := by
  simp [tupleLt]

/-- Transitivity of the tuple order. -/
theorem tupleLt_trans (a b c : Nat × List Char × List Char)
    (h1 : tupleLt a b = true) (h2 : tupleLt b c = true) :
    tupleLt a c = true := by
  rw [tupleLt_iff] at h1 h2 ⊢
  rcases h1 with h1 | ⟨e1, h1⟩ <;> rcases h2 with h2 | ⟨e2, h2⟩
  · exact Or.inl (h1.trans h2)
  · exact Or.inl (by omega)
  · exact Or.inl (by omega)
  · refine Or.inr ⟨by omega, ?_⟩
    rcases h1 with h3 | ⟨f1, h4⟩ <;> rcases h2 with h3' | ⟨f2, h4'⟩
    · exact Or.inl (h3.trans h3')
    · exact Or.inl (by rw [← f2]; exact h3)
    · exact Or.inl (by rw [f1]; exact h3')
    · exact Or.inr ⟨f1.trans f2, h4.trans h4'⟩

/-- Asymmetry of the tuple order. -/
theorem tupleLt_asymm (a b : Nat × List Char × List Char)
    (h : tupleLt a b = true) : tupleLt b a = false := by
  rw [Bool.eq_false_iff]
  intro h'
  rw [tupleLt_iff] at h h'
  rcases h with h1 | ⟨e1, h2⟩ <;> rcases h' with h1' | ⟨e1', h2'⟩
  · omega
  · omega
  · omega
  · rcases h2 with h3 | ⟨f1, h4⟩ <;> rcases h2' with h3' | ⟨f1', h4'⟩
    · exact absurd (h3.trans h3') (lt_irrefl _)
    · exact absurd h3 (by rw [f1']; exact lt_irrefl _)
    · exact absurd h3' (by rw [f1]; exact lt_irrefl _)
    · exact absurd (h4.trans h4') (lt_irrefl _)

/-- Totality of the tuple order. -/
theorem tupleLt_connex (a b : Nat × List Char × List Char)
    (h : tupleLt a b = false) : tupleLt b a = true ∨ a = b := by
  rw [Bool.eq_false_iff] at h
  simp only [ne_eq, tupleLt_iff] at h ⊢
  push_neg at h
  obtain ⟨hn1, hrest⟩ := h
  by_cases hb1 : b.1 < a.1
  · exact Or.inl (Or.inl hb1)
  · have e1 : a.1 = b.1 := by omega
    obtain ⟨hn2, hrest2⟩ := hrest e1
    rcases lt_or_eq_of_le hn2 with hlt | heq
    · exact Or.inl (Or.inr ⟨e1.symm, Or.inl hlt⟩)
    · rcases lt_or_eq_of_le (hrest2 heq.symm) with hlt2 | heq2
      · exact Or.inl (Or.inr ⟨e1.symm, Or.inr ⟨heq, hlt2⟩⟩)
      · exact Or.inr (Prod.ext_iff.mpr ⟨e1, Prod.ext_iff.mpr ⟨heq.symm, heq2.symm⟩⟩)

/-- An element above another is above everything that element is above. -/
theorem tupleLt_not_of_lt_of_not (x y z : Nat × List Char × List Char)
    (h1 : tupleLt y x = true) (h2 : tupleLt y z = false) :
    tupleLt x z = false := by
  rw [Bool.eq_false_iff]
  intro h3
  rcases tupleLt_connex y z h2 with h4 | rfl
  · exact absurd (tupleLt_trans x z y h3 h4)
      (Bool.eq_false_iff.mp (tupleLt_asymm y x h1))
  · exact absurd h3 (Bool.eq_false_iff.mp (tupleLt_asymm y x h1))

/-- Inserting into the tuple order is a permutation of consing. -/
theorem insertTupleDesc_perm (x : Nat × List Char × List Char)
    (l : List (Nat × List Char × List Char)) :
    List.Perm (insertTupleDesc x l) (x :: l) := by
  induction l with
  | nil => exact List.Perm.refl _
  | cons y ys ih =>
    rw [insertTupleDesc]
    by_cases hc : tupleLt y x = true
    · rw [if_pos hc]
    · rw [if_neg hc]
      exact (ih.cons y).trans (List.Perm.swap x y ys)

/-- Tuple insertion keeps the list sorted descending. -/
theorem insertTupleDesc_sorted (x : Nat × List Char × List Char)
    (l : List (Nat × List Char × List Char))
    (h : l.Sorted (fun a b => tupleLt a b = false)) :
    (insertTupleDesc x l).Sorted (fun a b => tupleLt a b = false) := by
  induction l with
  | nil => exact List.sorted_singleton x
  | cons y ys ih =>
    rcases List.pairwise_cons.mp h with ⟨hy, hys⟩
    rw [insertTupleDesc]
    by_cases hc : tupleLt y x = true
    · rw [if_pos hc]
      refine List.pairwise_cons.mpr ⟨?_, h⟩
      intro z hz
      rcases List.mem_cons.mp hz with rfl | hz'
      · exact tupleLt_asymm z x hc
      · exact tupleLt_not_of_lt_of_not x y z hc (hy z hz')
    · rw [if_neg hc]
      refine List.pairwise_cons.mpr ⟨?_, ih hys⟩
      intro z hz
      rcases List.mem_cons.mp ((insertTupleDesc_perm x ys).mem_iff.mp hz)
        with rfl | hz'
      · exact Bool.eq_false_iff.mpr hc
      · exact hy z hz'

/-- The reverse tuple sort: a permutation of the input, sorted descending in
the tuple order. -/
theorem sortTuplesDesc_spec (l : List (Nat × List Char × List Char)) :
    List.Perm (sortTuplesDesc l) l ∧
    (sortTuplesDesc l).Sorted (fun a b => tupleLt a b = false) := by
  suffices h : ∀ acc : List (Nat × List Char × List Char),
      acc.Sorted (fun a b => tupleLt a b = false) →
      List.Perm (l.foldl (fun acc x => insertTupleDesc x acc) acc) (acc ++ l) ∧
      (l.foldl (fun acc x => insertTupleDesc x acc) acc).Sorted
        (fun a b => tupleLt a b = false) by
    obtain ⟨hp, hs⟩ := h [] List.sorted_nil
    unfold sortTuplesDesc
    exact ⟨by simpa using hp, hs⟩
  induction l with
  | nil => exact fun acc hacc => ⟨by simp, hacc⟩
  | cons x xs ih =>
    intro acc hacc
    simp only [List.foldl_cons]
    obtain ⟨hp, hs⟩ := ih (insertTupleDesc x acc) (insertTupleDesc_sorted x acc hacc)
    exact ⟨hp.trans (((insertTupleDesc_perm x acc).append_right xs).trans
      List.perm_middle.symm), hs⟩

/-- Reading a bucket steps through a cons. -/
theorem bucketOf_cons (L K : Char) (xs : List (List Char))
    (rest : List (Char × List (List Char))) :
    bucketOf L ((K, xs) :: rest) = if K = L then xs else bucketOf L rest := by
  by_cases h : K = L
  · rw [if_pos h, bucketOf, List.find?_cons_of_pos _ (by simp [h])]
  · rw [if_neg h, bucketOf, bucketOf, List.find?_cons_of_neg _ (by simp [h])]

/-- Appending an entry to a letter's bucket appends it to exactly that
bucket's list. -/
theorem bucketOf_addToBucket (L L' : Char) (e : List Char) :
    ∀ bs : List (Char × List (List Char)),
      bucketOf L (addToBucket L' e bs) =
        if L' = L then bucketOf L bs ++ [e] else bucketOf L bs := by
  intro bs
  induction bs with
  | nil =>
    rw [show addToBucket L' e [] = [(L', [e])] from rfl, bucketOf_cons]
    by_cases hL : L' = L
    · rw [if_pos hL, if_pos hL]
      rfl
    · rw [if_neg hL, if_neg hL]
  | cons q rest ih =>
    obtain ⟨K, xs⟩ := q
    rw [addToBucket]
    by_cases hK : K = L'
    · rw [if_pos hK, bucketOf_cons, bucketOf_cons]
      by_cases hL : L' = L
      · have hKL : K = L := hK.trans hL
        rw [if_pos hKL, if_pos hL, if_pos hKL]
      · have hKL : ¬K = L := fun hh => hL (hK.symm.trans hh)
        rw [if_neg hKL, if_neg hL, if_neg hKL]
    · rw [if_neg hK, bucketOf_cons, bucketOf_cons, ih]
      by_cases hKL : K = L
      · by_cases hL : L' = L
        · exact absurd (hKL.trans hL.symm) hK
        · simp [hKL, hL]
      · by_cases hL : L' = L
        · simp [hKL, hL]
        · simp [hKL, hL]

/-- Each letter's script bucket is exactly the entries of the operations
starting with that letter, in iteration order. -/
theorem apexAlphaScriptOf_bucketOf (L : Char)
    (ss : List (Nat × List Char × List Char)) :
    bucketOf L (apexAlphaScriptOf ss) =
      (ss.filter (fun s => scriptFirstLetter s.2.1 == L)).map (fun s => s.2.2) := by
  suffices h : ∀ acc : List (Char × List (List Char)),
      bucketOf L (ss.foldl
          (fun acc s => addToBucket (scriptFirstLetter s.2.1) s.2.2 acc) acc) =
        bucketOf L acc ++
          (ss.filter (fun s => scriptFirstLetter s.2.1 == L)).map
            (fun s => s.2.2) by
    have h2 := h []
    rw [show bucketOf L ([] : List (Char × List (List Char))) = [] from rfl,
      List.nil_append] at h2
    exact h2
  induction ss with
  | nil =>
    intro acc
    simp
  | cons s ss' ih =>
    intro acc
    simp only [List.foldl_cons]
    rw [ih (addToBucket (scriptFirstLetter s.2.1) s.2.2 acc), bucketOf_addToBucket]
    by_cases hL : scriptFirstLetter s.2.1 = L
    · rw [if_pos hL, List.filter_cons_of_pos (by simp [hL]), List.map_cons]
      simp
    · rw [if_neg hL, List.filter_cons_of_neg (by simp [hL])]

/-- C7 counterexample: in `_build_apex_layer`, two topics whose apex entries
carry the same parsed count keep insertion order — `B` stays before `A` — so
ties are not broken by topic name ascending, and the key counts records, not
total occurrences; in `build_layer1_apex`, the reverse tuple sort breaks the
same tie by operation name descending — `b` before `a` — and an alphabetical
bucket keeps iteration order, `ab` before `aa`, instead of being sorted. -/
theorem apexPopular_tie_counterexample :
    (apexPopular [fixBexB, fixBexA] = ["B:1:1:1:0".data, "A:1:1:1:1".data] ∧
      entryKey "B:1:1:1:0".data = entryKey "A:1:1:1:1".data ∧
      ¬("B:1:1:1:0".data ≤ "A:1:1:1:1".data) ∧
      fixBexA.sources.length = 3 ∧ fixBexB.sources.length = 1) ∧
    (apexPopularScript (fun _ => 0) [fixOpA, fixOpB] =
        Except.ok ["b:1:1:3:0".data, "a:1:1:3:0".data] ∧
      totalMentions fixOpA = totalMentions fixOpB ∧
      ¬("b:1:1:3:0".data ≤ "a:1:1:3:0".data) ∧
      apexAlphaScript (fun _ => 0) [fixOpAB, fixOpAA] =
        Except.ok [('A', ["ab:1:1:3:0".data, "aa:1:1:3:0".data])] ∧
      ¬("ab:1:1:3:0".data ≤ "aa:1:1:3:0".data)) := by
  decide

/-- C7 (amended): in `ThreeLayerBuilder._build_apex_layer` the popularity
list is the apex entries stably sorted by the parsed per-topic record count,
descending — ties keep the entry insertion order — and the alphabetical
buckets are each sorted lexicographically, holding exactly entries of their
letter.  In `build_layer1_apex` the popularity list is the mention-count,
operation, entry tuples sorted descending in the lexicographic tuple order —
ties on the mention count are broken by operation name descending — and the
alphabetical buckets keep the clusters' iteration order, unsorted: each
letter's bucket is exactly the entries of the operations starting with that
letter, in input order. -/
theorem apex_layer_ordering (exs : List BuilderExample)
    (pyHash : List Char → Nat) (cs : List OpCluster)
    (ss : List (Nat × List Char × List Char))
    (hss : opStats pyHash cs = Except.ok ss) :
    (List.Perm (apexPopular exs) (apexEntries exs) ∧
      (apexPopular exs).Sorted
        (fun a b => (entryKey b).getD 0 ≤ (entryKey a).getD 0) ∧
      (∀ k, (apexPopular exs).filter (fun e => (entryKey e).getD 0 == k) =
        (apexEntries exs).filter (fun e => (entryKey e).getD 0 == k)) ∧
      ∀ p ∈ apexAlpha exs, p.2.Sorted (· ≤ ·) ∧
        ∀ e ∈ p.2, bucketKey e = some p.1) ∧
    (apexPopularScript pyHash cs =
        Except.ok ((sortTuplesDesc ss).map (fun s => s.2.2)) ∧
      List.Perm (sortTuplesDesc ss) ss ∧
      (sortTuplesDesc ss).Sorted (fun a b => tupleLt a b = false) ∧
      apexAlphaScript pyHash cs = Except.ok (apexAlphaScriptOf ss) ∧
      ∀ L, bucketOf L (apexAlphaScriptOf ss) =
        (ss.filter (fun s => scriptFirstLetter s.2.1 == L)).map
          (fun s => s.2.2)) := by
  obtain ⟨hp, hs, hf⟩ :=
    sortByCountDesc_spec (fun e => (entryKey e).getD 0) (apexEntries exs)
  obtain ⟨hp2, hs2⟩ := sortTuplesDesc_spec ss
  refine ⟨⟨hp, hs, hf, ?_⟩,
    ?_, hp2, hs2, ?_, fun L => apexAlphaScriptOf_bucketOf L ss⟩
  · intro p hp'
    unfold apexAlpha at hp'
    obtain ⟨q, hq, rfl⟩ := List.mem_map.mp hp'
    refine ⟨List.sorted_insertionSort _ _, fun e he => ?_⟩
    have he' : e ∈ q.2 := (List.perm_insertionSort _ _).mem_iff.mp he
    exact apexAlphaRaw_invariant (apexEntries exs) q hq e he'
  · rw [apexPopularScript, hss]
  · rw [apexAlphaScript, hss]

/-- Witness for C7 at a two-record builder input and a one-cluster script
input. -/
theorem apex_layer_ordering_witness :
    opStats (fun _ => 0) [fixOpA] =
      Except.ok [(1, "a".data, "a:1:1:3:0".data)] ∧
    List.Perm (apexPopular [fixBexB, fixBexA]) (apexEntries [fixBexB, fixBexA]) ∧
    apexPopularScript (fun _ => 0) [fixOpA] =
      Except.ok ((sortTuplesDesc [(1, "a".data, "a:1:1:3:0".data)]).map
        (fun s => s.2.2)) := by
  have h := apex_layer_ordering [fixBexB, fixBexA] (fun _ => 0) [fixOpA]
    [(1, "a".data, "a:1:1:3:0".data)] (by decide)
  exact ⟨by decide, h.1.1, h.2.1⟩

end DedupSpec
